import Mathlib

/-!
Verification of the nixpare/logger core against its specification.

The Go sources are shallowly embedded: pure functions become Lean functions,
the tiered storage engine (`hugeLogStorage`) becomes a state structure with
explicit state-passing operations, file contents are modelled as the decoded
record lists the JSON lines represent, and every Go `panic` path is an
`Option.none` result.  `LogChunkSize` (the global chunk/cache size `K`) is an
explicit parameter of each storage operation.
-/

namespace NixpareLogger

/-- Model of Go's `strings.ToLower` (ASCII fragment): lowercase every
character. -/
def goToLower (s : String) : String :=
  ⟨s.data.map Char.toLower⟩

/-- Model of Go's `strings.TrimSpace`: drop whitespace from both ends. -/
def goTrimSpace (s : String) : String :=
  ⟨(((s.data.dropWhile Char.isWhitespace).reverse).dropWhile
      Char.isWhitespace).reverse⟩

/-! ### Tags: `Log.addTags`, `Log.Match`, `Log.MatchAny` (src/v2/log.go) -/

/-- `Log.addTags` (src/v2/log.go:287): lowercase each input tag and append it
to the tag list iff it is not already present.  `goToLower` models Go's `strings.ToLower`. -/
def addTags (tags : List String) (input : List String) : List String :=
  input.foldl
    (fun acc tag =>
      let t := goToLower tag
      if t ∈ acc then acc else acc ++ [t])
    tags

/-- `Log.Match` (src/v2/log.go:304): true iff every argument, lowercased,
occurs in the tag list. -/
def Match (tags : List String) (args : List String) : Bool :=
  args.all (fun matchTag => tags.contains (goToLower matchTag))

/-- `Log.MatchAny` (src/v2/log.go:322): true iff at least one argument,
lowercased, occurs in the tag list. -/
def MatchAny (tags : List String) (args : List String) : Bool :=
  args.any (fun matchTag => tags.contains (goToLower matchTag))

/-- The first-insertion-order deduplication of a list: keep the first
occurrence of each element, in order of first appearance. -/
def firstInsertionOrder (inputs : List String) : List String :=
  inputs.foldl (fun acc t => if t ∈ acc then acc else acc ++ [t]) []

theorem addTags_map_toLower (tags : List String) (input : List String) :
    addTags tags input
      = (input.map goToLower).foldl
          (fun acc t => if t ∈ acc then acc else acc ++ [t]) tags := by
  simp only [addTags, List.foldl_map]

theorem step_nodup (acc : List String) (t : String) (h : acc.Nodup) :
    (if t ∈ acc then acc else acc ++ [t]).Nodup := by
  split
  · exact h
  · next hmem => simpa [List.nodup_append] using ⟨h, fun h' => hmem h'⟩

theorem foldl_step_nodup (l : List String) (acc : List String) (h : acc.Nodup) :
    (l.foldl (fun acc t => if t ∈ acc then acc else acc ++ [t]) acc).Nodup := by
  induction l generalizing acc with
  | nil => exact h
  | cons x xs ih => exact ih _ (step_nodup _ _ h)

theorem addTags_nodup (tags : List String) (input : List String)
    (h : tags.Nodup) : (addTags tags input).Nodup := by
  rw [addTags_map_toLower]; exact foldl_step_nodup _ _ h

theorem foldl_step_prefix (l : List String) (acc : List String) :
    acc <+: l.foldl (fun acc t => if t ∈ acc then acc else acc ++ [t]) acc := by
  induction l generalizing acc with
  | nil => exact List.prefix_rfl
  | cons x xs ih =>
      refine List.IsPrefix.trans ?_ (ih _)
      by_cases h : x ∈ acc
      · simp [h]
      · simp only [h, if_false]; exact ⟨[x], rfl⟩

theorem addTags_prefix (tags : List String) (input : List String) :
    tags <+: addTags tags input := by
  rw [addTags_map_toLower]; exact foldl_step_prefix _ _

theorem foldl_addTags_join (calls : List (List String)) (tags : List String) :
    calls.foldl addTags tags = addTags tags calls.flatten := by
  induction calls generalizing tags with
  | nil => simp [addTags]
  | cons c cs ih => simp [List.flatten, addTags, List.foldl_append, ih]

theorem Match_iff (tags : List String) (args : List String) :
    Match tags args = true ↔ ∀ a ∈ args, goToLower a ∈ tags := by
  simp [Match, List.all_eq_true, List.elem_iff]

theorem MatchAny_iff (tags : List String) (args : List String) :
    MatchAny tags args = true ↔ ∃ a ∈ args, goToLower a ∈ tags := by
  simp [MatchAny, List.any_eq_true, List.elem_iff]

/-- **C8.** `addTags` lowercases each input tag and appends it iff absent;
after any sequence of `addTags` calls starting from the empty tag list the
tag list has no duplicates and equals the first-insertion-order
deduplication of the lowercased inputs (earlier tags stay as a prefix);
`Match` is the conjunction of lowercased membership and `MatchAny` the
disjunction. -/
theorem C8_addTags_match (calls : List (List String)) (args : List String) :
    (∀ tags t, addTags tags [t]
        = if goToLower t ∈ tags then tags else tags ++ [goToLower t])
    ∧ (calls.foldl addTags []).Nodup
    ∧ calls.foldl addTags [] = firstInsertionOrder (calls.flatten.map goToLower)
    ∧ (∀ tags input, tags <+: addTags tags input)
    ∧ (Match (calls.foldl addTags []) args = true
        ↔ ∀ a ∈ args, goToLower a ∈ calls.foldl addTags [])
    ∧ (MatchAny (calls.foldl addTags []) args = true
        ↔ ∃ a ∈ args, goToLower a ∈ calls.foldl addTags []) := by
  refine ⟨fun tags t => rfl, ?_, ?_, addTags_prefix, Match_iff _ _, MatchAny_iff _ _⟩
  · rw [foldl_addTags_join]; exact addTags_nodup _ _ List.nodup_nil
  · rw [foldl_addTags_join, addTags_map_toLower]; rfl

/-- **C10.** `Match` with zero arguments is vacuously true and `MatchAny`
with zero arguments is vacuously false, whatever the stored tags. -/
theorem C10_empty_match (tags : List String) :
    Match tags [] = true ∧ MatchAny tags [] = false :=
  ⟨rfl, rfl⟩

/-! ### Log level serialisation (src/v2/log.go:16-87) -/

/-- Go `type LogLevel int`; the eight declared constants are `iota` values
`0..7` and `UnmarshalJSON` writes the sentinel `-1` for unknown tokens. -/
abbrev LogLevel := Int

def LOG_LEVEL_BLANK : LogLevel := 0
def LOG_LEVEL_INFO : LogLevel := 1
def LOG_LEVEL_DEBUG : LogLevel := 2
def LOG_LEVEL_WARNING : LogLevel := 3
def LOG_LEVEL_ERROR : LogLevel := 4
def LOG_LEVEL_FATAL : LogLevel := 5
def log_level_stdout : LogLevel := 6
def log_level_stderr : LogLevel := 7

/-- `LogLevel.String` (src/v2/log.go:29). -/
def levelString (level : LogLevel) : String :=
  if level = LOG_LEVEL_BLANK ∨ level = log_level_stdout ∨ level = log_level_stderr then ""
  else if level = LOG_LEVEL_INFO then "   Info"
  else if level = LOG_LEVEL_DEBUG then "  Debug"
  else if level = LOG_LEVEL_WARNING then "Warning"
  else if level = LOG_LEVEL_ERROR then "  Error"
  else if level = LOG_LEVEL_FATAL then "  Fatal"
  else "  ???  "

/-- `LogLevel.MarshalJSON` (src/v2/log.go:48), at the token level: the string
that is JSON-encoded.  Go computes
`strings.TrimSpace(strings.ToLower(level.String()))` with special cases for
the two capture levels. -/
def marshalToken (level : LogLevel) : String :=
  if level = log_level_stdout then "stdout"
  else if level = log_level_stderr then "stderr"
  else goTrimSpace (goToLower (levelString level))

/-- `LogLevel.UnmarshalJSON` (src/v2/log.go:59), at the token level: the
switch over the decoded string.  The Go method never returns an error once
the token has been decoded as a string; unknown tokens yield `-1`. -/
def unmarshalToken (s : String) : LogLevel :=
  if s = "" then LOG_LEVEL_BLANK
  else if s = "info" then LOG_LEVEL_INFO
  else if s = "debug" then LOG_LEVEL_DEBUG
  else if s = "warning" then LOG_LEVEL_WARNING
  else if s = "error" then LOG_LEVEL_ERROR
  else if s = "fatal" then LOG_LEVEL_FATAL
  else if s = "stdout" then log_level_stdout
  else if s = "stderr" then log_level_stderr
  else -1

/-- The eight declared log levels. -/
def declaredLevels : List LogLevel :=
  [LOG_LEVEL_BLANK, LOG_LEVEL_INFO, LOG_LEVEL_DEBUG, LOG_LEVEL_WARNING,
   LOG_LEVEL_ERROR, LOG_LEVEL_FATAL, log_level_stdout, log_level_stderr]

/-- The tokens recognised by `unmarshalToken`. -/
def recognisedTokens : List String :=
  ["", "info", "debug", "warning", "error", "fatal", "stdout", "stderr"]

/-- **C9.** Every defined level marshals to its lowercase token (with the
`"stdout"`/`"stderr"` special cases) and unmarshalling that token yields the
same level back; any unrecognised token decodes to the sentinel `-1`,
without error (`unmarshalToken` is total). -/
theorem C9_level_roundtrip (s : String) (hs : s ∉ recognisedTokens) :
    (∀ level ∈ declaredLevels, unmarshalToken (marshalToken level) = level)
    ∧ unmarshalToken s = -1 := by
  constructor
  · decide
  · simp only [recognisedTokens, List.mem_cons, List.not_mem_nil, or_false,
      not_or] at hs
    obtain ⟨h0, h1, h2, h3, h4, h5, h6, h7⟩ := hs
    simp [unmarshalToken, h0, h1, h2, h3, h4, h5, h6, h7]

/-- Witness for C9 at the concrete unknown token `"verbose"`. -/
theorem C9_level_roundtrip_witness :
    ("verbose" ∉ recognisedTokens)
    ∧ ((∀ level ∈ declaredLevels, unmarshalToken (marshalToken level) = level)
        ∧ unmarshalToken "verbose" = -1) :=
  ⟨by decide, C9_level_roundtrip "verbose" (by decide)⟩

/-! ### Clone-logger reads (src/v2/clone_ogger.go:101-135) -/

/-- Collect `f a` for each element in order, failing (Go panic) as soon as
one lookup fails — the shape of the `for … range` collection loops in
`memLogger.GetSpecificLogs` and `cloneLogger.GetSpecificLogs`. -/
def optMap {A B : Type} (f : A → Option B) : List A → Option (List B)
  | [] => some []
  | a :: rest => (f a).bind fun b => (optMap f rest).map fun bs => b :: bs

/-- The read interface a clone projects through: its parent's `GetLog` and
`GetSpecificLogs`.  An out-of-range index is a Go panic, i.e. `none`. -/
structure LogReader (Log : Type) where
  getLogFn : Nat → Option Log
  getSpecificLogsFn : List Nat → Option (List Log)

/-- A reader is coherent when `GetSpecificLogs` returns exactly the records
`GetLog` yields at each requested index (true of `memLogger`,
src/v2/mem_logger.go:100-109). -/
def LogReader.Coherent {Log : Type} (r : LogReader Log) : Prop :=
  ∀ idx : List Nat, r.getSpecificLogsFn idx = optMap r.getLogFn idx

/-- `memLogger` reads (src/v2/mem_logger.go:78-109): `GetLog` indexes the
in-memory sequence, `GetSpecificLogs` collects `v[p]` for each `p`. -/
def memReader {Log : Type} (v : List Log) : LogReader Log where
  getLogFn index := v[index]?
  getSpecificLogsFn logs := optMap (fun p => v[p]?) logs

/-- `cloneLogger.GetLog` (src/v2/clone_ogger.go:101): `p := l.v[index];
return l.parent.GetLog(p)`. -/
def cloneGetLog {Log : Type} (parent : LogReader Log) (v : List Nat)
    (index : Nat) : Option Log :=
  (v[index]?).bind fun p => parent.getLogFn p

/-- `cloneLogger.GetLogs` (src/v2/clone_ogger.go:117): collect `v[start:end]`
and ask the parent for those specific logs.  The Go slice `v[start:end]`
panics unless `start ≤ end ≤ len(v)`. -/
def cloneGetLogs {Log : Type} (parent : LogReader Log) (v : List Nat)
    (start stop : Nat) : Option (List Log) :=
  if start ≤ stop ∧ stop ≤ v.length then
    parent.getSpecificLogsFn ((v.drop start).take (stop - start))
  else none

/-- `cloneLogger.GetSpecificLogs` (src/v2/clone_ogger.go:126): map each
requested clone index through `v`, then ask the parent. -/
def cloneGetSpecificLogs {Log : Type} (parent : LogReader Log) (v : List Nat)
    (logs : List Nat) : Option (List Log) :=
  (optMap (fun p => v[p]?) logs).bind fun logsToParent =>
    parent.getSpecificLogsFn logsToParent

/-- The clone itself viewed as a `LogReader`, so clones can be parents. -/
def cloneReader {Log : Type} (parent : LogReader Log) (v : List Nat) :
    LogReader Log where
  getLogFn := cloneGetLog parent v
  getSpecificLogsFn := cloneGetSpecificLogs parent v

theorem memReader_coherent {Log : Type} (v : List Log) :
    (memReader v).Coherent := fun _ => rfl

theorem cloneReader_coherent {Log : Type} (parent : LogReader Log)
    (v : List Nat) (h : parent.Coherent) : (cloneReader parent v).Coherent := by
  intro idx
  show cloneGetSpecificLogs parent v idx = optMap (cloneGetLog parent v) idx
  induction idx with
  | nil =>
      simp only [cloneGetSpecificLogs, optMap, Option.some_bind]
      rw [h]; rfl
  | cons i is ih =>
      rw [cloneGetSpecificLogs] at ih
      rw [cloneGetSpecificLogs, optMap, optMap, cloneGetLog]
      cases hv : v[i]? with
      | none => rfl
      | some p =>
          cases his : optMap (fun p => v[p]?) is with
          | none =>
              rw [his] at ih
              simp only [Option.some_bind, Option.none_bind, Option.map_none,
                Option.bind_none] at ih ⊢
              rw [← ih]
              cases parent.getLogFn p <;> simp
          | some ps =>
              rw [his] at ih
              simp only [Option.some_bind] at ih
              simp only [Option.map_some', Option.some_bind]
              rw [h, optMap, ← ih, h]

/-- **C7.** For a clone with parent-index vector `v`: `GetLog i` is the
parent's `GetLog` at `v[i]`; `GetLogs start stop` is the parent's
`GetSpecificLogs` at `v[start:stop]`; `GetSpecificLogs idx` is the parent's
`GetSpecificLogs` at the `v`-image of `idx`; and when the parent's reads are
coherent the clone's reads equal the parent's records at the mapped indices
and compose transitively through clone chains (a clone of a clone reads the
grandparent at the doubly mapped index, and the clone is itself coherent). -/
theorem C7_clone_projection {Log : Type} (parent : LogReader Log)
    (v v2 : List Nat) (i start stop j : Nat) (idx : List Nat)
    (hcoh : parent.Coherent) (hi : i < v.length)
    (hse : start ≤ stop) (hsl : stop ≤ v.length) :
    cloneGetLog parent v i = parent.getLogFn v[i]
    ∧ cloneGetLogs parent v start stop
        = parent.getSpecificLogsFn ((v.drop start).take (stop - start))
    ∧ (∀ m, optMap (fun p => (v[p]? : Option Nat)) idx = some m →
        cloneGetSpecificLogs parent v idx = parent.getSpecificLogsFn m)
    ∧ (cloneReader parent v).Coherent
    ∧ (∀ p q, v2[j]? = some p → v[p]? = some q →
        cloneGetLog (cloneReader parent v) v2 j = parent.getLogFn q) := by
  refine ⟨?_, ?_, ?_, cloneReader_coherent parent v hcoh, ?_⟩
  · rw [cloneGetLog, List.getElem?_eq_getElem hi]; rfl
  · simp [cloneGetLogs, hse, hsl]
  · intro m hm; rw [cloneGetSpecificLogs, hm]; rfl
  · intro p q hp hq
    rw [cloneGetLog, hp, Option.some_bind]
    show cloneGetLog parent v p = _
    rw [cloneGetLog, hq, Option.some_bind]

/-- Witness for C7: a memory parent holding three records, a clone mapping
`[2, 0]`, and a clone of that clone mapping `[1]`. -/
theorem C7_clone_projection_witness :
    ((memReader [(10 : Nat), 11, 12]).Coherent ∧ 1 < [2, 0].length
      ∧ 0 ≤ 2 ∧ 2 ≤ [2, 0].length)
    ∧ (cloneGetLog (memReader [(10 : Nat), 11, 12]) [2, 0] 1
          = (memReader [(10 : Nat), 11, 12]).getLogFn ([2, 0][1])
      ∧ cloneGetLogs (memReader [(10 : Nat), 11, 12]) [2, 0] 0 2
          = (memReader [(10 : Nat), 11, 12]).getSpecificLogsFn
              (([2, 0].drop 0).take (2 - 0))
      ∧ (∀ m, optMap (fun p => (([2, 0] : List Nat)[p]? : Option Nat)) [1, 0] = some m →
          cloneGetSpecificLogs (memReader [(10 : Nat), 11, 12]) [2, 0] [1, 0]
            = (memReader [(10 : Nat), 11, 12]).getSpecificLogsFn m)
      ∧ (cloneReader (memReader [(10 : Nat), 11, 12]) [2, 0]).Coherent
      ∧ (∀ p q, ([1] : List Nat)[0]? = some p → ([2, 0] : List Nat)[p]? = some q →
          cloneGetLog (cloneReader (memReader [(10 : Nat), 11, 12]) [2, 0]) [1] 0
            = (memReader [(10 : Nat), 11, 12]).getLogFn q)) :=
  ⟨⟨memReader_coherent _, by decide, by decide, by decide⟩,
    C7_clone_projection (memReader [(10 : Nat), 11, 12]) [2, 0] [1] 1 0 2 0 [1, 0]
      (memReader_coherent _) (by decide) (by decide) (by decide)⟩

/-! ### Tiered storage `hugeLogStorage` (src/unnamed/part_004)

The state mirrors the Go struct: `n`, `chunks`, the circular `cache` with
`cacheHead`, `lastStored`, `heavyLoad`, the per-chunk pending `buffer`
(Go map, embedded as an association list whose lookups and deletions act on
the first matching key), and `files`, where `files[c]` is the list of
records whose JSON lines chunk file `c` currently holds.  The chunk size
`LogChunkSize` is the parameter `K`.  Disk writes append a record to
`files[chunks]`; a scanner that runs off the end of a file yields no bytes
and the subsequent `json.Unmarshal` fails, which the Go code turns into a
panic — modelled as `none`. -/

structure HLS (Log : Type) where
  n : Nat
  chunks : Nat
  cache : List Log
  cacheHead : Nat
  lastStored : Int
  heavyLoad : Bool
  buffer : List (Nat × List Log)
  files : List (List Log)
deriving DecidableEq

/-- Go map read `hls.buffer[c]`: first entry with key `c`. -/
def lookupBuf {Log : Type} : List (Nat × List Log) → Nat → Option (List Log)
  | [], _ => none
  | e :: rest, c => if e.1 = c then some e.2 else lookupBuf rest c

/-- `addLog`'s buffered branch (src/unnamed/part_004:96-102): fetch or
allocate `buffer[chunks]` and append the record to it. -/
def bufAppend {Log : Type} : List (Nat × List Log) → Nat → Log → List (Nat × List Log)
  | [], c, l => [(c, [l])]
  | e :: rest, c, l =>
    if e.1 = c then (c, e.2 ++ [l]) :: rest else e :: bufAppend rest c l

/-- Go `delete(hls.buffer, c)`. -/
def eraseBuf {Log : Type} : List (Nat × List Log) → Nat → List (Nat × List Log)
  | [], _ => []
  | e :: rest, c => if e.1 = c then rest else e :: eraseBuf rest c

/-- Total size of the pending buffers, `Σ len(buffer[c])`. -/
def bufSum {Log : Type} (buf : List (Nat × List Log)) : Nat :=
  (buf.map (fun e => e.2.length)).sum

/-- Append one record (a JSON line plus newline) to chunk file `c`. -/
def writeLine {Log : Type} (files : List (List Log)) (c : Nat) (l : Log) :
    List (List Log) :=
  files.set c (files.getD c [] ++ [l])

/-- `initHugeLogStorage` (src/unnamed/part_004:28): empty cache, empty
buffer map, `lastStored = -1`, chunk file `0` created empty. -/
def initHLS {Log : Type} : HLS Log :=
  { n := 0, chunks := 0, cache := [], cacheHead := 0, lastStored := -1,
    heavyLoad := false, buffer := [], files := [[]] }

/-- `hugeLogStorage.addLog` (src/unnamed/part_004:64-106): ring-insert into
the cache (rotating to a fresh chunk file when the eviction crosses a chunk
boundary), then either write the JSON line directly (quiescent and
contiguous) or push the record onto the pending buffer of the current
chunk; finally increment `n`. -/
def cacheInsert {Log : Type} (K : Nat) (s : HLS Log) (l : Log) : HLS Log :=
  if s.cache.length < K then
    { s with cache := s.cache ++ [l] }
  else
    let s' := { s with cache := s.cache.set s.cacheHead l,
                       cacheHead := (s.cacheHead + 1) % s.cache.length }
    if s.n % K = 0 then
      { s' with chunks := s'.chunks + 1, files := s'.files ++ [[]] }
    else s'

/-- Steps 3-4 of `addLog`: write the JSON line directly when quiescent and
contiguous, else push onto the pending buffer of the current chunk. -/
def storeOrBuffer {Log : Type} (s : HLS Log) (l : Log) : HLS Log :=
  if s.heavyLoad = false ∧ s.lastStored + 1 = (s.n : Int) then
    { s with files := writeLine s.files s.chunks l,
             lastStored := s.lastStored + 1 }
  else
    { s with buffer := bufAppend s.buffer s.chunks l }

def addLog {Log : Type} (K : Nat) (s : HLS Log) (l : Log) : HLS Log :=
  let s2 := storeOrBuffer (cacheInsert K s l) l
  { s2 with n := s2.n + 1 }

theorem cacheInsert_n {Log : Type} (K : Nat) (s : HLS Log) (l : Log) :
    (cacheInsert K s l).n = s.n := by
  unfold cacheInsert; split
  · rfl
  · split <;> rfl

theorem cacheInsert_lastStored {Log : Type} (K : Nat) (s : HLS Log) (l : Log) :
    (cacheInsert K s l).lastStored = s.lastStored := by
  unfold cacheInsert; split
  · rfl
  · split <;> rfl

theorem cacheInsert_buffer {Log : Type} (K : Nat) (s : HLS Log) (l : Log) :
    (cacheInsert K s l).buffer = s.buffer := by
  unfold cacheInsert; split
  · rfl
  · split <;> rfl

theorem cacheInsert_heavyLoad {Log : Type} (K : Nat) (s : HLS Log) (l : Log) :
    (cacheInsert K s l).heavyLoad = s.heavyLoad := by
  unfold cacheInsert; split
  · rfl
  · split <;> rfl

theorem storeOrBuffer_n {Log : Type} (s : HLS Log) (l : Log) :
    (storeOrBuffer s l).n = s.n := by
  unfold storeOrBuffer; split <;> rfl

theorem storeOrBuffer_cache {Log : Type} (s : HLS Log) (l : Log) :
    (storeOrBuffer s l).cache = s.cache := by
  unfold storeOrBuffer; split <;> rfl

theorem storeOrBuffer_cacheHead {Log : Type} (s : HLS Log) (l : Log) :
    (storeOrBuffer s l).cacheHead = s.cacheHead := by
  unfold storeOrBuffer; split <;> rfl

theorem storeOrBuffer_chunks {Log : Type} (s : HLS Log) (l : Log) :
    (storeOrBuffer s l).chunks = s.chunks := by
  unfold storeOrBuffer; split <;> rfl

theorem storeOrBuffer_heavyLoad {Log : Type} (s : HLS Log) (l : Log) :
    (storeOrBuffer s l).heavyLoad = s.heavyLoad := by
  unfold storeOrBuffer; split <;> rfl

theorem addLog_n {Log : Type} (K : Nat) (s : HLS Log) (l : Log) :
    (addLog K s l).n = s.n + 1 := by
  unfold addLog
  simp only [storeOrBuffer_n, cacheInsert_n]

theorem addLog_lastStored {Log : Type} (K : Nat) (s : HLS Log) (l : Log) :
    (addLog K s l).lastStored
      = (storeOrBuffer (cacheInsert K s l) l).lastStored := rfl

theorem addLog_buffer {Log : Type} (K : Nat) (s : HLS Log) (l : Log) :
    (addLog K s l).buffer = (storeOrBuffer (cacheInsert K s l) l).buffer := rfl

theorem addLog_cache {Log : Type} (K : Nat) (s : HLS Log) (l : Log) :
    (addLog K s l).cache = (cacheInsert K s l).cache := by
  show (storeOrBuffer (cacheInsert K s l) l).cache = _
  exact storeOrBuffer_cache _ _

theorem addLog_cacheHead {Log : Type} (K : Nat) (s : HLS Log) (l : Log) :
    (addLog K s l).cacheHead = (cacheInsert K s l).cacheHead := by
  show (storeOrBuffer (cacheInsert K s l) l).cacheHead = _
  exact storeOrBuffer_cacheHead _ _

theorem addLog_chunks {Log : Type} (K : Nat) (s : HLS Log) (l : Log) :
    (addLog K s l).chunks = (cacheInsert K s l).chunks := by
  show (storeOrBuffer (cacheInsert K s l) l).chunks = _
  exact storeOrBuffer_chunks _ _

theorem addLog_heavyLoad {Log : Type} (K : Nat) (s : HLS Log) (l : Log) :
    (addLog K s l).heavyLoad = s.heavyLoad := by
  show (storeOrBuffer (cacheInsert K s l) l).heavyLoad = _
  rw [storeOrBuffer_heavyLoad, cacheInsert_heavyLoad]

/-- Which of the two store branches `storeOrBuffer` takes. -/
theorem storeOrBuffer_cases {Log : Type} (s : HLS Log) (l : Log) :
    ((storeOrBuffer s l).lastStored = s.lastStored + 1
      ∧ (storeOrBuffer s l).buffer = s.buffer)
    ∨ ((storeOrBuffer s l).lastStored = s.lastStored
      ∧ (storeOrBuffer s l).buffer = bufAppend s.buffer s.chunks l) := by
  unfold storeOrBuffer; split
  · exact Or.inl ⟨rfl, rfl⟩
  · exact Or.inr ⟨rfl, rfl⟩

/-- List read at a Go `int` offset: negative or out-of-range is a panic. -/
def getI? {Log : Type} (b : List Log) (i : Int) : Option Log :=
  if 0 ≤ i then b[i.toNat]? else none

/-- `hugeLogStorage.getLog` (src/unnamed/part_004:108-149).  Cache hit when
`n ≤ K` or `index ≥ n-K` (ring arithmetic); pending-buffer hit when
`index > lastStored` (offset `fIndex - (K - len b)`); otherwise a disk scan.
The Go scan loop `for i := 0; i < index; i++ { sc.Scan() }` skips `index`
lines — the *global* index, not `fIndex` — so the read returns line `index`
of chunk file `index/K` when it exists and panics (`none`) otherwise. -/
def getLog {Log : Type} (K : Nat) (s : HLS Log) (index : Nat) : Option Log :=
  if s.n ≤ K then s.cache[index]?
  else if s.n - K ≤ index then
    s.cache[(index - (s.n - K) + s.cacheHead) % K]?
  else
    let fNum := index / K
    if s.lastStored < (index : Int) then
      match lookupBuf s.buffer fNum with
      | none => none
      | some b => getI? b ((index % K : Int) - ((K : Int) - b.length))
    else
      (s.files.getD fNum [])[index]?

/-- The `interval` struct (src/unnamed/part_004:151); `end` is a Lean
keyword, so the field is called `stop`. -/
structure interval where
  start : Int
  stop : Int
deriving DecidableEq

/-- The cutting loop of `splitRequestRange` (src/unnamed/part_004:177-185):
`count` iterations remain, `i` is the loop variable, `inter` the interval
being grown; a new interval is cut whenever `i` is a chunk boundary. -/
def walkIntervals (K : Nat) (inter : interval) (i : Int) : Nat → List interval
  | 0 => [inter]
  | count + 1 =>
    if i % (K : Int) = 0 then
      inter :: walkIntervals K ⟨i, i + 1⟩ (i + 1) count
    else
      walkIntervals K ⟨inter.start, inter.stop + 1⟩ (i + 1) count

/-- `hugeLogStorage.splitRequestRange` (src/unnamed/part_004:155-188), and
identically `fileLogStorage.splitRequestRange` (src/v2/logStorage.go:193).
If the request reaches the cache tail, the tail part `[n-K, stop)` is peeled
off (appended last, via `defer`) and the walk handles the rest. -/
def splitRequestRange {Log : Type} (K : Nat) (s : HLS Log) (start stop : Int) :
    List interval :=
  let nK : Int := (s.n : Int) - (K : Int)
  if stop - 1 ≥ nK then
    if start < nK then
      walkIntervals K ⟨start, start + 1⟩ (start + 1) (nK - start - 1).toNat
        ++ [⟨nK, stop⟩]
    else [⟨start, stop⟩]
  else
    walkIntervals K ⟨start, start + 1⟩ (start + 1) (stop - start - 1).toNat

/-- The sequential read loop of `getLogs` (src/unnamed/part_004:218-232):
starting at line `i` with `lines` left in the file, read while `i < stop`,
stopping early at EOF; returns the records read and the final `i`. -/
def scanRead {Log : Type} (stop : Int) : List Log → Int → List Log × Int
  | [], i => ([], i)
  | l :: rest, i =>
    if stop ≤ i then ([], i)
    else
      let p := scanRead stop rest (i + 1)
      (l :: p.1, p.2)

/-- Go slice `b[si:ei]` (panics outside `0 ≤ si ≤ ei ≤ len`). -/
def listSlice {Log : Type} (b : List Log) (si ei : Int) : Option (List Log) :=
  if 0 ≤ si ∧ si ≤ ei ∧ ei ≤ (b.length : Int) then
    some ((b.drop si.toNat).take (ei - si).toNat)
  else none

/-- Integer range `[start, start+count)` as a list. -/
def intRange (start : Int) : Nat → List Int
  | 0 => []
  | count + 1 => start :: intRange (start + 1) count

/-- One interval of the `getLogs` body (src/unnamed/part_004:194-247).
Cache-tail intervals loop over `getLog`.  Disk intervals open chunk
`x.start/K` (failing for a negative index — no such file), skip to
`x.start`, scan to `x.stop` or EOF, and, if the scan ended early at a log
newer than `lastStored`, splice the remainder from the pending buffer with
the `(K - len b)` offset formula; a missing buffer is a panic. -/
def readInterval {Log : Type} (K : Nat) (s : HLS Log) (x : interval) :
    Option (List Log) :=
  if (s.n : Int) - (K : Int) ≤ x.start then
    (intRange x.start (x.stop - x.start).toNat).foldr
      (fun i acc =>
        (if 0 ≤ i then getLog K s i.toNat else none).bind fun l =>
          acc.map fun r => l :: r)
      (some [])
  else if x.start < 0 then none
  else
    let fNum := x.start.toNat / K
    let p := scanRead x.stop
      ((s.files.getD fNum []).drop (x.start.toNat - fNum * K)) x.start
    if p.2 < x.stop ∧ s.lastStored < p.2 then
      match lookupBuf s.buffer fNum with
      | none => none
      | some b =>
        let si := p.2 % (K : Int) - ((K : Int) - b.length)
        let ei := x.start % (K : Int) + (x.stop - x.start) - ((K : Int) - b.length)
        (listSlice b si ei).map fun sl => p.1 ++ sl
    else some p.1

/-- `hugeLogStorage.getLogs` (src/unnamed/part_004:190-251): split the
request and concatenate the interval reads. -/
def getLogs {Log : Type} (K : Nat) (s : HLS Log) (start stop : Int) :
    Option (List Log) :=
  (splitRequestRange K s start stop).foldl
    (fun acc x => acc.bind fun r => (readInterval K s x).map fun v => r ++ v)
    (some [])

/-- The drain loop of `hugeLogStorage.alignStorage`
(src/unnamed/part_004:367-405): pick chunk `(lastStored+1)/K`; stop if its
buffer is absent or empty (or `heavyLoad` with `empty = false`); otherwise
append the whole buffer to that chunk file, advance `lastStored`, delete
the buffer entry, and repeat.  Each iteration deletes one map key, so the
fuel `buffer.length + 1` below never runs out. -/
def alignLoop {Log : Type} (K : Nat) (empty : Bool) : Nat → HLS Log → HLS Log
  | 0, s => s
  | fuel + 1, s =>
    if empty = false ∧ s.heavyLoad = true then s
    else
      let chunk := (s.lastStored + 1).toNat / K
      match lookupBuf s.buffer chunk with
      | none => s
      | some b =>
        if b.length = 0 then s
        else
          alignLoop K empty fuel
            { s with files := s.files.set chunk (s.files.getD chunk [] ++ b),
                     lastStored := s.lastStored + b.length,
                     buffer := eraseBuf s.buffer chunk }

/-- `hugeLogStorage.alignStorage` (src/unnamed/part_004:362-406). -/
def alignStorage {Log : Type} (K : Nat) (s : HLS Log) (empty : Bool) : HLS Log :=
  if s.n = 0 then s else alignLoop K empty (s.buffer.length + 1) s

/-- The operations that drive a `hugeLogStorage`: appends, alignment
passes, and the heavy-load flag writes performed by the monitor
(`SetHeavyLoad` / `checkHeavyLoad`). -/
inductive StorageOp (Log : Type) where
  | add (l : Log)
  | align (empty : Bool)
  | setHeavy (v : Bool)
deriving DecidableEq

def applyOp {Log : Type} (K : Nat) (s : HLS Log) : StorageOp Log → HLS Log
  | .add l => addLog K s l
  | .align b => alignStorage K s b
  | .setHeavy v => { s with heavyLoad := v }

/-- Run a sequence of storage operations from the initial state. -/
def runOps {Log : Type} (K : Nat) (ops : List (StorageOp Log)) : HLS Log :=
  ops.foldl (applyOp K) initHLS

/-- The records appended by a sequence of operations, in order. -/
def opsLogs {Log : Type} : List (StorageOp Log) → List Log
  | [] => []
  | .add l :: rest => l :: opsLogs rest
  | _ :: rest => opsLogs rest

/-- Run a plain sequence of `addLog` calls from the initial state. -/
def runAdd {Log : Type} (K : Nat) (ls : List Log) : HLS Log :=
  ls.foldl (addLog K) initHLS

/-! ### C2: the `getLog` disk path reads the wrong line -/

/-- **C2** (code bug).  With `LogChunkSize = 1`, after appending three
records `10, 11, 12` (all flushed: `lastStored = 2`), `getLog 1` must read
chunk `1/1 = 1` at line `1 % 1 = 0` and return the record `11` appended at
index 1.  The code instead skips `index = 1` lines inside the one-line
chunk file, so the scanner hits EOF and `json.Unmarshal` of the empty
buffer panics (`none`).  The sibling implementation
`fileLogStorage.getLog` (src/v2/huge_log_storage.go:122) reduces the index
modulo `LogChunkSize` first, which is what the claim and the spec
describe.  The cache and pending-buffer regions behave as claimed. -/
theorem C2_getLog_disk_bug :
    getLog 1 (runAdd 1 [(10 : Nat), 11, 12]) 1 = none
    ∧ [(10 : Nat), 11, 12][1]? = some 11
    ∧ (runAdd 1 [(10 : Nat), 11, 12]).lastStored = 2
    ∧ getLog 1 (runAdd 1 [(10 : Nat), 11, 12]) 2 = some 12
    ∧ getLog 2
        (runOps 2 [StorageOp.setHeavy true, .add (10 : Nat), .add 11, .add 12]) 0
        = some 10 := by
  decide

/-! ### C3: `n = lastStored + 1 + Σ len(buffer[c])` -/

theorem bufSum_bufAppend {Log : Type} (buf : List (Nat × List Log)) (c : Nat)
    (l : Log) : bufSum (bufAppend buf c l) = bufSum buf + 1 := by
  induction buf with
  | nil => simp [bufAppend, bufSum]
  | cons e rest ih =>
      by_cases h : e.1 = c
      · simp [bufAppend, h, bufSum]; ring
      · simp [bufAppend, h, bufSum] at ih ⊢; omega

theorem bufSum_eraseBuf {Log : Type} (buf : List (Nat × List Log)) (c : Nat)
    (b : List Log) (h : lookupBuf buf c = some b) :
    bufSum buf = bufSum (eraseBuf buf c) + b.length := by
  induction buf with
  | nil => simp [lookupBuf] at h
  | cons e rest ih =>
      by_cases he : e.1 = c
      · simp [lookupBuf, he] at h
        simp [eraseBuf, he, bufSum, h]
        omega
      · simp [lookupBuf, he] at h
        have := ih h
        simp [eraseBuf, he, bufSum] at this ⊢
        omega

/-- The counting invariant, as an auxiliary predicate. -/
def CountInv {Log : Type} (s : HLS Log) : Prop :=
  (s.n : Int) = s.lastStored + 1 + (bufSum s.buffer : Int)

theorem countInv_addLog {Log : Type} (K : Nat) (s : HLS Log) (l : Log)
    (h : CountInv s) : CountInv (addLog K s l) := by
  unfold CountInv at h ⊢
  rw [addLog_n, addLog_lastStored, addLog_buffer]
  rcases storeOrBuffer_cases (cacheInsert K s l) l with ⟨h1, h2⟩ | ⟨h1, h2⟩ <;>
    rw [h1, h2, cacheInsert_lastStored] <;>
    [rw [cacheInsert_buffer]; rw [cacheInsert_buffer, bufSum_bufAppend]] <;>
    push_cast <;> omega

theorem countInv_alignLoop {Log : Type} (K : Nat) (empty : Bool) (fuel : Nat)
    (s : HLS Log) (h : CountInv s) : CountInv (alignLoop K empty fuel s) := by
  induction fuel generalizing s with
  | zero => exact h
  | succ fuel ih =>
      rw [alignLoop]
      split
      · exact h
      · rcases hb : lookupBuf s.buffer ((s.lastStored + 1).toNat / K) with _ | b
        · simp only [hb]
          exact h
        · simp only [hb]
          split
          · exact h
          · refine ih _ ?_
            unfold CountInv at h ⊢
            simp only []
            rw [bufSum_eraseBuf s.buffer _ b hb] at h
            push_cast at h ⊢
            omega

theorem countInv_applyOp {Log : Type} (K : Nat) (s : HLS Log)
    (op : StorageOp Log) (h : CountInv s) : CountInv (applyOp K s op) := by
  cases op with
  | add l => exact countInv_addLog K s l h
  | align b =>
      show CountInv (alignStorage K s b)
      unfold alignStorage
      split
      · exact h
      · exact countInv_alignLoop K b _ s h
  | setHeavy v => exact h

/-- **C3.** In every state reachable from the initial storage state by any
sequence of operations — `addLog` appends, `alignStorage` passes, and (a
strengthening of the claim) arbitrary heavy-load flag writes by the
monitor — the equation `n = lastStored + 1 + Σ len(buffer[c])` holds. -/
theorem C3_count_invariant {Log : Type} (K : Nat) (ops : List (StorageOp Log)) :
    ((runOps K ops).n : Int)
      = (runOps K ops).lastStored + 1 + (bufSum (runOps K ops).buffer : Int) := by
  suffices h : CountInv (runOps K ops) from h
  unfold runOps
  induction ops using List.reverseRecOn with
  | nil => simp [CountInv, initHLS, bufSum]
  | append_singleton ops op ih =>
      rw [List.foldl_append, List.foldl_cons, List.foldl_nil]
      exact countInv_applyOp K _ op ih

/-! ### C1: the empty-range counterexample -/

/-- **C1** (counterexample).  The claim quantifies over all
`0 ≤ start ≤ end ≤ n`; for `[getLog(i) for i in [start, end))` to be the
result, an empty range must yield the empty list.  With `LogChunkSize = 1`
and one appended record, `getLogs 0 0` returns one record, not zero:
`splitRequestRange` emits the spurious interval `[0, 1)` for the empty
request `[0, 0)`. -/
theorem C1_empty_range_cex :
    getLogs 1 (runAdd 1 [(10 : Nat)]) 0 0 ≠ some []
    ∧ getLogs 1 (runAdd 1 [(10 : Nat)]) 0 0 = some [10] := by
  constructor
  · decide
  · decide

/-! ### The reachability invariant of the tiered storage -/

theorem lt_div_succ_mul (n K : Nat) (hK : 0 < K) : n < (n / K + 1) * K := by
  rw [Nat.mul_comm]
  exact Nat.lt_mul_div_succ n hK

theorem div_mul_le (n K : Nat) : n / K * K ≤ n :=
  Nat.div_mul_le_self n K

theorem getD_append_unit {Log : Type} (files : List (List Log)) (c : Nat) :
    (files ++ [([] : List Log)]).getD c [] = files.getD c [] := by
  rcases lt_trichotomy c files.length with h | h | h
  · rw [List.getD_eq_getElem?_getD, List.getD_eq_getElem?_getD,
      List.getElem?_append_left h]
  · subst h
    rw [List.getD_eq_getElem?_getD, List.getD_eq_getElem?_getD,
      List.getElem?_append_right (le_refl _),
      List.getElem?_eq_none_iff.mpr (le_refl _)]
    simp
  · rw [List.getD_eq_getElem?_getD, List.getD_eq_getElem?_getD,
      List.getElem?_eq_none_iff.mpr (by simp; omega),
      List.getElem?_eq_none_iff.mpr (by omega)]

theorem getD_set_self {Log : Type} (files : List (List Log)) (c : Nat)
    (x : List Log) (h : c < files.length) : (files.set c x).getD c [] = x := by
  rw [List.getD_eq_getElem?_getD, List.getElem?_set_self h]
  rfl

theorem getD_set_ne {Log : Type} (files : List (List Log)) (c c' : Nat)
    (x : List Log) (h : c ≠ c') : (files.set c x).getD c' [] = files.getD c' [] := by
  rw [List.getD_eq_getElem?_getD, List.getD_eq_getElem?_getD,
    List.getElem?_set_ne h]

theorem lookupBuf_bufAppend_self {Log : Type} (buf : List (Nat × List Log))
    (c : Nat) (l : Log) :
    lookupBuf (bufAppend buf c l) c
      = some ((lookupBuf buf c).getD [] ++ [l]) := by
  induction buf with
  | nil => simp [bufAppend, lookupBuf]
  | cons e rest ih =>
      by_cases he : e.1 = c
      · simp [bufAppend, he, lookupBuf]
      · simp [bufAppend, he, lookupBuf, ih]

theorem lookupBuf_bufAppend_ne {Log : Type} (buf : List (Nat × List Log))
    (c c' : Nat) (l : Log) (h : c ≠ c') :
    lookupBuf (bufAppend buf c l) c' = lookupBuf buf c' := by
  induction buf with
  | nil => simp [bufAppend, lookupBuf, h]
  | cons e rest ih =>
      by_cases he : e.1 = c
      · subst he; simp [bufAppend, lookupBuf, h, ih]
      · simp only [bufAppend, he, if_false, lookupBuf, ih]

theorem lookupBuf_eq_none_iff {Log : Type} (buf : List (Nat × List Log))
    (c : Nat) : lookupBuf buf c = none ↔ c ∉ buf.map Prod.fst := by
  induction buf with
  | nil => simp [lookupBuf]
  | cons e rest ih =>
      by_cases he : e.1 = c
      · simp [lookupBuf, he]
      · simp [lookupBuf, he, ih, Ne.symm he]

theorem lookupBuf_isSome_of_mem {Log : Type} (buf : List (Nat × List Log))
    (e : Nat × List Log) (h : e ∈ buf) : lookupBuf buf e.1 ≠ none := by
  intro hnone
  rw [lookupBuf_eq_none_iff] at hnone
  exact hnone (List.mem_map_of_mem Prod.fst h)

theorem buffer_eq_nil_of_lookup_none {Log : Type} (buf : List (Nat × List Log))
    (h : ∀ c, lookupBuf buf c = none) : buf = [] := by
  cases buf with
  | nil => rfl
  | cons e rest => exact absurd (h e.1) (lookupBuf_isSome_of_mem _ e (by simp))

theorem keys_bufAppend_of_some {Log : Type} (buf : List (Nat × List Log))
    (c : Nat) (l : Log) (h : lookupBuf buf c ≠ none) :
    (bufAppend buf c l).map Prod.fst = buf.map Prod.fst := by
  induction buf with
  | nil => simp [lookupBuf] at h
  | cons e rest ih =>
      by_cases he : e.1 = c
      · simp [bufAppend, he]
      · simp only [lookupBuf, he, if_false] at h
        simp [bufAppend, he, ih h]

theorem keys_bufAppend_of_none {Log : Type} (buf : List (Nat × List Log))
    (c : Nat) (l : Log) (h : lookupBuf buf c = none) :
    (bufAppend buf c l).map Prod.fst = buf.map Prod.fst ++ [c] := by
  induction buf with
  | nil => simp [bufAppend]
  | cons e rest ih =>
      by_cases he : e.1 = c
      · simp [lookupBuf, he] at h
      · simp only [lookupBuf, he, if_false] at h
        simp [bufAppend, he, ih h]

theorem keys_eraseBuf_sublist {Log : Type} (buf : List (Nat × List Log))
    (c : Nat) :
    ((eraseBuf buf c).map Prod.fst).Sublist (buf.map Prod.fst) := by
  induction buf with
  | nil => simp [eraseBuf]
  | cons e rest ih =>
      by_cases he : e.1 = c
      · simp only [eraseBuf, he, if_true, List.map_cons]
        exact (List.sublist_cons_self _ _)
      · simp only [eraseBuf, he, if_false, List.map_cons]
        exact ih.cons₂ _

theorem lookupBuf_eraseBuf_self {Log : Type} (buf : List (Nat × List Log))
    (c : Nat) (hnd : (buf.map Prod.fst).Nodup) :
    lookupBuf (eraseBuf buf c) c = none := by
  induction buf with
  | nil => simp [eraseBuf, lookupBuf]
  | cons e rest ih =>
      simp only [List.map_cons, List.nodup_cons] at hnd
      by_cases he : e.1 = c
      · subst he
        simp only [eraseBuf, if_true]
        rw [lookupBuf_eq_none_iff]
        exact hnd.1
      · simp only [eraseBuf, he, if_false, lookupBuf, ih hnd.2]

theorem lookupBuf_eraseBuf_ne {Log : Type} (buf : List (Nat × List Log))
    (c c' : Nat) (h : c ≠ c') :
    lookupBuf (eraseBuf buf c) c' = lookupBuf buf c' := by
  induction buf with
  | nil => simp [eraseBuf]
  | cons e rest ih =>
      by_cases he : e.1 = c
      · subst he; simp [eraseBuf, lookupBuf, h]
      · simp only [eraseBuf, he, if_false, lookupBuf, ih]

theorem eraseBuf_length {Log : Type} (buf : List (Nat × List Log)) (c : Nat)
    (h : lookupBuf buf c ≠ none) :
    (eraseBuf buf c).length + 1 = buf.length := by
  induction buf with
  | nil => simp [lookupBuf] at h
  | cons e rest ih =>
      by_cases he : e.1 = c
      · simp [eraseBuf, he]
      · simp only [lookupBuf, he, if_false] at h
        simp [eraseBuf, he, ih h]

/-- The pending part of chunk `c`: the records whose global indices lie in
`(lastStored, n)` and in chunk `c`, or `none` when there are none.  This is
exactly the content the Go map `buffer` associates to key `c`. -/
def pendingChunk {Log : Type} (K : Nat) (ls : List Log) (st : Int) (c : Nat) :
    Option (List Log) :=
  let lo := max (st + 1).toNat (c * K)
  let hi := min ls.length (c * K + K)
  if lo < hi then some ((ls.drop lo).take (hi - lo)) else none

/-- The reachability invariant of `hugeLogStorage`, relating a state to the
list `ls` of records ever appended: `n` counts `ls`; `lastStored` stays in
`[-1, n-1]`; `chunks` tracks the chunk of the most recent record; the ring
cache holds the newest `min n K` records at positions `i % K`; chunk file
`c` holds the stored prefix of chunk `c`; and the buffer map holds exactly
the pending (unstored) suffix, chunk by chunk, with distinct keys. -/
structure Inv {Log : Type} (K : Nat) (ls : List Log) (s : HLS Log) : Prop where
  n_eq : s.n = ls.length
  st_lb : -1 ≤ s.lastStored
  st_ub : s.lastStored + 1 ≤ (ls.length : Int)
  chunks_eq : s.chunks = (ls.length - 1) / K
  cache_len : s.cache.length = min ls.length K
  head_eq : s.cacheHead = if ls.length ≤ K then 0 else ls.length % K
  cache_get : ∀ i : Nat, i < ls.length → ls.length - K ≤ i →
    s.cache[i % K]? = ls[i]?
  files_len : s.files.length = s.chunks + 1
  files_get : ∀ c : Nat,
    s.files.getD c []
      = (ls.drop (c * K)).take
          (min (s.lastStored + 1).toNat (c * K + K) - c * K)
  buf_lookup : ∀ c : Nat, lookupBuf s.buffer c = pendingChunk K ls s.lastStored c
  keys_nodup : (s.buffer.map Prod.fst).Nodup

theorem Inv_init {Log : Type} (K : Nat) : Inv K ([] : List Log) initHLS := by
  refine ⟨rfl, by norm_num [initHLS], by norm_num [initHLS], ?_, ?_, ?_, ?_, ?_, ?_, ?_, ?_⟩
  · simp [initHLS]
  · simp [initHLS]
  · simp [initHLS]
  · intro i hi _; simp at hi
  · simp [initHLS]
  · intro c
    simp only [initHLS]
    rw [show (min (((-1 : Int) + 1).toNat) (c * K + K) - c * K) = 0 by simp,
      List.take_zero]
    cases c <;> rfl
  · intro c
    show (none : Option (List Log)) = pendingChunk K [] (-1) c
    unfold pendingChunk
    simp
  · simp [initHLS]

theorem pred_div_succ_of_dvd (n K : Nat) (hK : 0 < K) (hdvd : K ∣ n)
    (hn : K ≤ n) : (n - 1) / K + 1 = n / K := by
  obtain ⟨q, rfl⟩ := hdvd
  have hq : 1 ≤ q := by
    rcases Nat.eq_zero_or_pos q with h | h
    · subst h; omega
    · exact h
  have e1 : K * q / K = q := Nat.mul_div_cancel_left q hK
  have hsub : (q - 1) * K + K = q * K := by
    have h := Nat.sub_mul q 1 K
    have h2 : K ≤ q * K := Nat.le_mul_of_pos_left K hq
    omega
  have e2 : (K * q - 1) / K = q - 1 := by
    apply Nat.div_eq_of_lt_le
    · have hc : q * K = K * q := Nat.mul_comm q K
      omega
    · have : (q - 1 + 1) * K = (q - 1) * K + K := Nat.succ_mul _ _
      have hc : q * K = K * q := Nat.mul_comm q K
      have hpos : 1 ≤ K * q := Nat.mul_pos hK hq
      omega
  omega

theorem pred_div_of_not_dvd (n K : Nat) (hK : 0 < K) (hmod : n % K ≠ 0) :
    (n - 1) / K = n / K := by
  have h0 : 0 < n % K := Nat.pos_of_ne_zero hmod
  have hd := Nat.div_add_mod n K
  have hub := lt_div_succ_mul n K hK
  apply Nat.div_eq_of_lt_le
  · have hc : K * (n / K) = n / K * K := Nat.mul_comm _ _
    omega
  · have : (n / K + 1) * K = n / K * K + K := Nat.succ_mul _ _
    omega

theorem mod_ne_of_near (i n K : Nat) (hlt : i < n) (hnear : n - i < K) :
    i % K ≠ n % K := by
  intro he
  have h1 := Nat.div_add_mod i K
  have h2 := Nat.div_add_mod n K
  rcases lt_trichotomy (i / K) (n / K) with h | h | h
  · have h3 : K * (i / K) + K ≤ K * (n / K) := by
      have := Nat.mul_le_mul_left K (Nat.succ_le_of_lt h)
      rw [Nat.mul_succ] at this
      exact this
    omega
  · rw [h] at h1; omega
  · have h3 : K * (n / K) + K ≤ K * (i / K) := by
      have := Nat.mul_le_mul_left K (Nat.succ_le_of_lt h)
      rw [Nat.mul_succ] at this
      exact this
    omega

/-- What `cacheInsert` does to a state satisfying the invariant: `chunks`
advances to the chunk of the new record, the ring gains the new record at
position `n % K`, and the chunk files are untouched except for the fresh
empty file on rotation (invisible to `getD`). -/
theorem cacheInsert_spec {Log : Type} (K : Nat) (ls : List Log) (s : HLS Log)
    (l : Log) (hK : 0 < K) (hinv : Inv K ls s) :
    (cacheInsert K s l).chunks = ls.length / K
    ∧ (cacheInsert K s l).cache.length = min (ls.length + 1) K
    ∧ (cacheInsert K s l).cacheHead
        = (if ls.length + 1 ≤ K then 0 else (ls.length + 1) % K)
    ∧ (∀ i : Nat, i < ls.length + 1 → ls.length + 1 - K ≤ i →
        (cacheInsert K s l).cache[i % K]? = (ls ++ [l])[i]?)
    ∧ (cacheInsert K s l).files.length = ls.length / K + 1
    ∧ (∀ c : Nat, (cacheInsert K s l).files.getD c [] = s.files.getD c []) := by
  unfold cacheInsert
  by_cases hfull : s.cache.length < K
  · have hnK : ls.length < K := by have := hinv.cache_len; omega
    have hlen : s.cache.length = ls.length := by have := hinv.cache_len; omega
    rw [if_pos hfull]
    dsimp only
    refine ⟨?_, ?_, ?_, ?_, ?_, fun c => rfl⟩
    · rw [hinv.chunks_eq, Nat.div_eq_of_lt hnK, Nat.div_eq_of_lt (by omega)]
    · rw [List.length_append, List.length_cons, List.length_nil, hlen]
      omega
    · rw [hinv.head_eq, if_pos (by omega), if_pos (by omega)]
    · intro i hi _
      have hiK : i % K = i := Nat.mod_eq_of_lt (by omega)
      rw [hiK]
      rcases Nat.lt_or_ge i ls.length with hilt | hige
      · rw [List.getElem?_append_left (by omega),
          List.getElem?_append_left hilt]
        have := hinv.cache_get i hilt (by omega)
        rw [hiK] at this
        exact this
      · have hieq : i = ls.length := by omega
        subst hieq
        rw [List.getElem?_append_right (by omega),
          List.getElem?_append_right (by omega), hlen]
    · rw [hinv.files_len, hinv.chunks_eq, Nat.div_eq_of_lt hnK,
        Nat.div_eq_of_lt (by omega)]
  · have hnK : K ≤ ls.length := by have := hinv.cache_len; omega
    have hlen : s.cache.length = K := by have := hinv.cache_len; omega
    have hhead : s.cacheHead = ls.length % K := by
      rw [hinv.head_eq]
      rcases Nat.lt_or_ge K ls.length with h | h
      · rw [if_neg (by omega)]
      · have : ls.length = K := by omega
        rw [if_pos (by omega), this, Nat.mod_self]
    have hcache : ∀ i : Nat, i < ls.length + 1 → ls.length + 1 - K ≤ i →
        (s.cache.set s.cacheHead l)[i % K]? = (ls ++ [l])[i]? := by
      intro i hi hge
      rcases Nat.lt_or_ge i ls.length with hilt | hige
      · have hne : i % K ≠ ls.length % K := mod_ne_of_near i ls.length K hilt (by omega)
        rw [hhead, List.getElem?_set_ne (fun he => hne he.symm),
          List.getElem?_append_left hilt]
        exact hinv.cache_get i hilt (by omega)
      · have hieq : i = ls.length := by omega
        subst hieq
        rw [hhead, List.getElem?_set_self (by rw [hlen]; exact Nat.mod_lt _ hK),
          List.getElem?_append_right (by omega)]
        simp
    have hhead' : (s.cacheHead + 1) % s.cache.length = (ls.length + 1) % K := by
      rw [hlen, hhead, Nat.add_mod ls.length 1 K, Nat.add_mod (ls.length % K) 1 K,
        Nat.mod_mod_of_dvd ls.length (dvd_refl K)]
    by_cases hrot : s.n % K = 0
    · rw [if_neg hfull, if_pos hrot]
      dsimp only
      have hdvd : K ∣ ls.length := by
        rw [hinv.n_eq] at hrot
        exact Nat.dvd_of_mod_eq_zero hrot
      refine ⟨?_, ?_, ?_, hcache, ?_, fun c => getD_append_unit _ _⟩
      · rw [hinv.chunks_eq, pred_div_succ_of_dvd _ _ hK hdvd hnK]
      · rw [List.length_set, hlen]; omega
      · rw [hhead', if_neg (by omega)]
      · rw [List.length_append, hinv.files_len, hinv.chunks_eq,
          List.length_cons, List.length_nil,
          ← pred_div_succ_of_dvd _ _ hK hdvd hnK]
    · rw [if_neg hfull, if_neg hrot]
      dsimp only
      have hmod : ls.length % K ≠ 0 := by rw [hinv.n_eq] at hrot; exact hrot
      refine ⟨?_, ?_, ?_, hcache, ?_, fun c => rfl⟩
      · rw [hinv.chunks_eq, pred_div_of_not_dvd _ _ hK hmod]
      · rw [List.length_set, hlen]; omega
      · rw [hhead', if_neg (by omega)]
      · rw [hinv.files_len, hinv.chunks_eq, pred_div_of_not_dvd _ _ hK hmod]

theorem writeLine_files_spec {Log : Type} (K : Nat) (ls : List Log) (l : Log)
    (F : List (List Log)) (hK : 0 < K)
    (hlen : F.length = ls.length / K + 1)
    (hget : ∀ c, F.getD c []
        = (ls.drop (c * K)).take (min ls.length (c * K + K) - c * K)) :
    ∀ c, (writeLine F (ls.length / K) l).getD c []
      = ((ls ++ [l]).drop (c * K)).take
          (min (ls.length + 1) (c * K + K) - c * K) := by
  intro c
  have hc0le : ls.length / K * K ≤ ls.length := div_mul_le _ K
  have hc0lt : ls.length < ls.length / K * K + K := by
    have h1 := lt_div_succ_mul ls.length K hK
    have h2 : (ls.length / K + 1) * K = ls.length / K * K + K := by ring
    omega
  unfold writeLine
  by_cases hc : c = ls.length / K
  · rw [hc, getD_set_self _ _ _ (by omega), hget]
    have h2 : min ls.length (ls.length / K * K + K) = ls.length := by omega
    have h3 : min (ls.length + 1) (ls.length / K * K + K) = ls.length + 1 := by
      omega
    rw [h2, h3, List.drop_append_of_le_length hc0le,
      List.take_all_of_le (by simp [List.length_drop] <;> omega),
      List.take_all_of_le (by simp [List.length_drop] <;> omega)]
  · rw [getD_set_ne _ _ _ _ (fun he => hc he.symm), hget]
    rcases Nat.lt_or_ge c (ls.length / K) with hlt | hge
    · have h1 : c * K + K ≤ ls.length / K * K := by
        have ha : (c + 1) * K ≤ ls.length / K * K :=
          Nat.mul_le_mul_right K hlt
        have hb : (c + 1) * K = c * K + K := by ring
        omega
      have h2 : min ls.length (c * K + K) = c * K + K := by omega
      have h3 : min (ls.length + 1) (c * K + K) = c * K + K := by omega
      rw [h2, h3, List.drop_append_of_le_length (by omega),
        List.take_append_of_le_length (by simp [List.length_drop]; omega)]
    · have hgt : ls.length / K < c := by omega
      have h1 : ls.length / K * K + K ≤ c * K := by
        have ha : (ls.length / K + 1) * K ≤ c * K :=
          Nat.mul_le_mul_right K hgt
        have hb : (ls.length / K + 1) * K = ls.length / K * K + K := by ring
        omega
      have h2 : min ls.length (c * K + K) - c * K = 0 := by omega
      have h3 : min (ls.length + 1) (c * K + K) - c * K = 0 := by omega
      rw [h2, h3]
      simp

theorem take_min_append {Log : Type} (ls : List Log) (l : Log) (m c K : Nat)
    (hm : m ≤ ls.length) :
    ((ls ++ [l]).drop (c * K)).take (min m (c * K + K) - c * K)
      = (ls.drop (c * K)).take (min m (c * K + K) - c * K) := by
  by_cases hc : c * K ≤ ls.length
  · rw [List.drop_append_of_le_length hc,
      List.take_append_of_le_length (by simp [List.length_drop]; omega)]
  · have hz : min m (c * K + K) - c * K = 0 := by omega
    rw [hz]
    simp

theorem pendingChunk_append {Log : Type} (K : Nat) (ls : List Log) (l : Log)
    (st : Int) (c : Nat) (hK : 0 < K) (hlb : -1 ≤ st)
    (hub : st + 1 ≤ (ls.length : Int)) :
    pendingChunk K (ls ++ [l]) st c
      = if c = ls.length / K
        then some ((pendingChunk K ls st c).getD [] ++ [l])
        else pendingChunk K ls st c := by
  have hstn : (st + 1).toNat ≤ ls.length := by omega
  have hc0le : ls.length / K * K ≤ ls.length := div_mul_le _ K
  have hc0lt : ls.length < ls.length / K * K + K := by
    have h1 := lt_div_succ_mul ls.length K hK
    have h2 : (ls.length / K + 1) * K = ls.length / K * K + K := by ring
    omega
  unfold pendingChunk
  simp only [List.length_append, List.length_cons, List.length_nil]
  by_cases hc : c = ls.length / K
  · rw [if_pos hc, hc]
    have hlo : max (st + 1).toNat (ls.length / K * K) ≤ ls.length := by omega
    rw [if_pos (by omega)]
    by_cases hlt : max (st + 1).toNat (ls.length / K * K) < ls.length
    · rw [if_pos (by omega)]
      simp only [Option.getD_some]
      have e1 : min (ls.length + 1 + 0) (ls.length / K * K + K)
          - max (st + 1).toNat (ls.length / K * K)
          = (ls.length + 1) - max (st + 1).toNat (ls.length / K * K) := by
        omega
      have e2 : min ls.length (ls.length / K * K + K)
          - max (st + 1).toNat (ls.length / K * K)
          = ls.length - max (st + 1).toNat (ls.length / K * K) := by omega
      rw [e1, e2, List.drop_append_of_le_length hlo,
        List.take_all_of_le (by simp [List.length_drop] <;> omega),
        List.take_all_of_le (by simp [List.length_drop] <;> omega)]
    · have hloeq : max (st + 1).toNat (ls.length / K * K) = ls.length := by
        omega
      rw [if_neg (by omega)]
      simp only [Option.getD_none]
      rw [hloeq, List.drop_append_of_le_length (le_refl _),
        List.drop_length, List.nil_append,
        List.take_all_of_le (by simp; omega)]
  · rw [if_neg hc]
    rcases Nat.lt_or_ge c (ls.length / K) with hlt | hge
    · have h1 : c * K + K ≤ ls.length / K * K := by
        have ha : (c + 1) * K ≤ ls.length / K * K :=
          Nat.mul_le_mul_right K hlt
        have hb : (c + 1) * K = c * K + K := by ring
        omega
      have hhi : min ls.length (c * K + K) = c * K + K := by omega
      have hhi' : min (ls.length + 1 + 0) (c * K + K) = c * K + K := by omega
      rw [hhi, hhi']
      by_cases hcond : max (st + 1).toNat (c * K) < c * K + K
      · rw [if_pos hcond, if_pos hcond,
          List.drop_append_of_le_length (by omega),
          List.take_append_of_le_length (by simp [List.length_drop]; omega)]
      · rw [if_neg hcond, if_neg hcond]
    · have hgt : ls.length / K < c := by omega
      have h1 : ls.length / K * K + K ≤ c * K := by
        have ha : (ls.length / K + 1) * K ≤ c * K :=
          Nat.mul_le_mul_right K hgt
        have hb : (ls.length / K + 1) * K = ls.length / K * K + K := by ring
        omega
      rw [if_neg (by omega), if_neg (by omega)]

/-- Preservation of the invariant by `addLog`. -/
theorem Inv_addLog {Log : Type} (K : Nat) (ls : List Log) (s : HLS Log)
    (l : Log) (hK : 0 < K) (hinv : Inv K ls s) :
    Inv K (ls ++ [l]) (addLog K s l) := by
  obtain ⟨hchunks, hclen, hchead, hcget, hflen, hfget⟩ :=
    cacheInsert_spec K ls s l hK hinv
  have htn : (cacheInsert K s l).n = ls.length := by
    rw [cacheInsert_n, hinv.n_eq]
  have htst := cacheInsert_lastStored K s l
  have htbuf := cacheInsert_buffer K s l
  have hthl := cacheInsert_heavyLoad K s l
  have hns : (ls ++ [l]).length = ls.length + 1 := by simp
  have hfget' : ∀ c, (cacheInsert K s l).files.getD c []
      = (ls.drop (c * K)).take
          (min (s.lastStored + 1).toNat (c * K + K) - c * K) := by
    intro c
    rw [hfget, hinv.files_get]
  have hr : addLog K s l
      = { storeOrBuffer (cacheInsert K s l) l
          with n := (storeOrBuffer (cacheInsert K s l) l).n + 1 } := rfl
  by_cases hguard : (cacheInsert K s l).heavyLoad = false
      ∧ (cacheInsert K s l).lastStored + 1 = ((cacheInsert K s l).n : Int)
  · -- direct store: `lastStored` was `n - 1` and advances to `n`
    have hstn : s.lastStored + 1 = (ls.length : Int) := by
      have h := hguard.2
      rwa [htst, htn] at h
    have hu : storeOrBuffer (cacheInsert K s l) l
        = { cacheInsert K s l with
            files := writeLine (cacheInsert K s l).files
              (cacheInsert K s l).chunks l,
            lastStored := (cacheInsert K s l).lastStored + 1 } := by
      unfold storeOrBuffer
      rw [if_pos hguard]
    rw [hr, hu]
    have hbufnil : s.buffer = [] := by
      apply buffer_eq_nil_of_lookup_none
      intro c
      rw [hinv.buf_lookup]
      unfold pendingChunk
      rw [if_neg (by omega)]
    refine ⟨?_, ?_, ?_, ?_, ?_, ?_, ?_, ?_, ?_, ?_, ?_⟩
    · show (cacheInsert K s l).n + 1 = (ls ++ [l]).length
      rw [htn, hns]
    · show -1 ≤ (cacheInsert K s l).lastStored + 1
      rw [htst]; omega
    · show (cacheInsert K s l).lastStored + 1 + 1 ≤ ((ls ++ [l]).length : Int)
      rw [htst, hns]; push_cast; omega
    · show (cacheInsert K s l).chunks = ((ls ++ [l]).length - 1) / K
      rw [hchunks, hns]; simp
    · show (cacheInsert K s l).cache.length = min (ls ++ [l]).length K
      rw [hclen, hns]
    · show (cacheInsert K s l).cacheHead
        = if (ls ++ [l]).length ≤ K then 0 else (ls ++ [l]).length % K
      rw [hchead, hns]
    · show ∀ i : Nat, i < (ls ++ [l]).length → (ls ++ [l]).length - K ≤ i →
        (cacheInsert K s l).cache[i % K]? = (ls ++ [l])[i]?
      rw [hns]
      exact hcget
    · show (writeLine (cacheInsert K s l).files
          (cacheInsert K s l).chunks l).length = (cacheInsert K s l).chunks + 1
      unfold writeLine
      rw [List.length_set, hflen, hchunks]
    · show ∀ c, (writeLine (cacheInsert K s l).files
          (cacheInsert K s l).chunks l).getD c []
        = ((ls ++ [l]).drop (c * K)).take
            (min ((cacheInsert K s l).lastStored + 1 + 1).toNat (c * K + K)
              - c * K)
      intro c
      rw [htst, hchunks]
      have h1 : (s.lastStored + 1 + 1).toNat = ls.length + 1 := by omega
      rw [h1]
      refine writeLine_files_spec K ls l _ hK hflen ?_ c
      intro c'
      rw [hfget', show (s.lastStored + 1).toNat = ls.length by omega]
    · show ∀ c, lookupBuf (cacheInsert K s l).buffer c
        = pendingChunk K (ls ++ [l]) ((cacheInsert K s l).lastStored + 1) c
      intro c
      rw [htbuf, hbufnil, htst]
      show none = _
      unfold pendingChunk
      rw [if_neg (by simp; omega)]
    · show ((cacheInsert K s l).buffer.map Prod.fst).Nodup
      rw [htbuf, hbufnil]
      exact List.nodup_nil
  · -- buffered: the record joins `buffer[chunks]`
    have hu : storeOrBuffer (cacheInsert K s l) l
        = { cacheInsert K s l with
            buffer := bufAppend (cacheInsert K s l).buffer
              (cacheInsert K s l).chunks l } := by
      unfold storeOrBuffer
      rw [if_neg hguard]
    rw [hr, hu]
    refine ⟨?_, ?_, ?_, ?_, ?_, ?_, ?_, ?_, ?_, ?_, ?_⟩
    · show (cacheInsert K s l).n + 1 = (ls ++ [l]).length
      rw [htn, hns]
    · show -1 ≤ (cacheInsert K s l).lastStored
      rw [htst]; exact hinv.st_lb
    · show (cacheInsert K s l).lastStored + 1 ≤ ((ls ++ [l]).length : Int)
      rw [htst, hns]
      push_cast
      have := hinv.st_ub
      omega
    · show (cacheInsert K s l).chunks = ((ls ++ [l]).length - 1) / K
      rw [hchunks, hns]; simp
    · show (cacheInsert K s l).cache.length = min (ls ++ [l]).length K
      rw [hclen, hns]
    · show (cacheInsert K s l).cacheHead
        = if (ls ++ [l]).length ≤ K then 0 else (ls ++ [l]).length % K
      rw [hchead, hns]
    · show ∀ i : Nat, i < (ls ++ [l]).length → (ls ++ [l]).length - K ≤ i →
        (cacheInsert K s l).cache[i % K]? = (ls ++ [l])[i]?
      rw [hns]
      exact hcget
    · show (cacheInsert K s l).files.length = (cacheInsert K s l).chunks + 1
      rw [hflen, hchunks]
    · show ∀ c, (cacheInsert K s l).files.getD c []
        = ((ls ++ [l]).drop (c * K)).take
            (min ((cacheInsert K s l).lastStored + 1).toNat (c * K + K)
              - c * K)
      intro c
      rw [htst, hfget', take_min_append]
      have := hinv.st_ub
      have := hinv.st_lb
      omega
    · show ∀ c, lookupBuf (bufAppend (cacheInsert K s l).buffer
          (cacheInsert K s l).chunks l) c
        = pendingChunk K (ls ++ [l]) (cacheInsert K s l).lastStored c
      intro c
      rw [htbuf, htst, hchunks,
        pendingChunk_append K ls l s.lastStored c hK hinv.st_lb hinv.st_ub]
      by_cases hc : c = ls.length / K
      · subst hc
        rw [if_pos rfl, lookupBuf_bufAppend_self, hinv.buf_lookup]
      · rw [if_neg hc, lookupBuf_bufAppend_ne _ _ _ _ (fun he => hc he.symm),
          hinv.buf_lookup]
    · show ((bufAppend (cacheInsert K s l).buffer
          (cacheInsert K s l).chunks l).map Prod.fst).Nodup
      rw [htbuf]
      by_cases hsome : lookupBuf s.buffer (cacheInsert K s l).chunks = none
      · rw [keys_bufAppend_of_none _ _ _ hsome]
        rw [lookupBuf_eq_none_iff] at hsome
        refine List.Nodup.append hinv.keys_nodup (List.nodup_singleton _) ?_
        intro a ha hb
        simp only [List.mem_singleton] at hb
        subst hb
        exact hsome ha
      · rw [keys_bufAppend_of_some _ _ _ hsome]
        exact hinv.keys_nodup

/-- The state after one iteration of the `alignStorage` drain loop. -/
def alignStep {Log : Type} (K : Nat) (s : HLS Log) (b : List Log) : HLS Log :=
  { s with files := s.files.set ((s.lastStored + 1).toNat / K)
             (s.files.getD ((s.lastStored + 1).toNat / K) [] ++ b),
           lastStored := s.lastStored + b.length,
           buffer := eraseBuf s.buffer ((s.lastStored + 1).toNat / K) }

theorem alignLoop_succ_some {Log : Type} (K : Nat) (empty : Bool) (fuel : Nat)
    (s : HLS Log) (b : List Log)
    (hguard : ¬(empty = false ∧ s.heavyLoad = true))
    (hb : lookupBuf s.buffer ((s.lastStored + 1).toNat / K) = some b)
    (hne : b.length ≠ 0) :
    alignLoop K empty (fuel + 1) s = alignLoop K empty fuel (alignStep K s b) := by
  rw [alignLoop]
  rw [if_neg hguard]
  simp only [hb]
  rw [if_neg hne]
  rfl

theorem alignLoop_succ_none {Log : Type} (K : Nat) (empty : Bool) (fuel : Nat)
    (s : HLS Log)
    (hb : lookupBuf s.buffer ((s.lastStored + 1).toNat / K) = none) :
    alignLoop K empty (fuel + 1) s = s := by
  rw [alignLoop]
  split
  · rfl
  · simp only [hb]

/-- Looking up the chunk holding the next unstored index decides whether
anything is pending at all. -/
theorem pendingChunk_next {Log : Type} (K : Nat) (ls : List Log) (st : Int)
    (hK : 0 < K) (hlb : -1 ≤ st) (hub : st + 1 ≤ (ls.length : Int)) :
    pendingChunk K ls st ((st + 1).toNat / K)
      = if st + 1 < (ls.length : Int)
        then some ((ls.drop (st + 1).toNat).take
            (min ls.length ((st + 1).toNat / K * K + K) - (st + 1).toNat))
        else none := by
  have hc0le : (st + 1).toNat / K * K ≤ (st + 1).toNat := div_mul_le _ K
  have hc0lt : (st + 1).toNat < (st + 1).toNat / K * K + K := by
    have h1 := lt_div_succ_mul (st + 1).toNat K hK
    have h2 : ((st + 1).toNat / K + 1) * K = (st + 1).toNat / K * K + K := by
      ring
    omega
  unfold pendingChunk
  have hlo : max (st + 1).toNat ((st + 1).toNat / K * K) = (st + 1).toNat := by
    omega
  rw [hlo]
  by_cases hpend : st + 1 < (ls.length : Int)
  · rw [if_pos hpend, if_pos (by omega)]
  · rw [if_neg hpend, if_neg (by omega)]

/-- One drain iteration preserves the invariant. -/
theorem Inv_alignStep {Log : Type} (K : Nat) (ls : List Log) (s : HLS Log)
    (b : List Log) (hK : 0 < K) (hinv : Inv K ls s)
    (hb : lookupBuf s.buffer ((s.lastStored + 1).toNat / K) = some b) :
    Inv K ls (alignStep K s b)
    ∧ (alignStep K s b).lastStored + 1
        = ((min ls.length ((s.lastStored + 1).toNat / K * K + K) : Nat) : Int)
    ∧ s.lastStored < (alignStep K s b).lastStored := by
  have hlb := hinv.st_lb
  have hub := hinv.st_ub
  have hlook := hb
  rw [hinv.buf_lookup, pendingChunk_next K ls s.lastStored hK hlb hub] at hlook
  by_cases hpend : s.lastStored + 1 < (ls.length : Int)
  · rw [if_pos hpend] at hlook
    have hbval := (Option.some_inj.mp hlook.symm)
    have hc0le : (s.lastStored + 1).toNat / K * K ≤ (s.lastStored + 1).toNat :=
      div_mul_le _ K
    have hc0lt : (s.lastStored + 1).toNat
        < (s.lastStored + 1).toNat / K * K + K := by
      have h1 := lt_div_succ_mul (s.lastStored + 1).toNat K hK
      have h2 : ((s.lastStored + 1).toNat / K + 1) * K
          = (s.lastStored + 1).toNat / K * K + K := by ring
      omega
    have hblen : b.length
        = min ls.length ((s.lastStored + 1).toNat / K * K + K)
          - (s.lastStored + 1).toNat := by
      rw [hbval, List.length_take, List.length_drop]
      omega
    set c0 := (s.lastStored + 1).toNat / K with hc0
    have hstnew : (alignStep K s b).lastStored + 1
        = ((min ls.length (c0 * K + K) : Nat) : Int) := by
      show s.lastStored + (b.length : Int) + 1 = _
      rw [hblen]
      push_cast
      omega
    have hc0chunks : c0 ≤ (ls.length - 1) / K := by
      rw [hc0]
      apply Nat.div_le_div_right
      omega
    refine ⟨⟨?_, ?_, ?_, ?_, ?_, ?_, ?_, ?_, ?_, ?_, ?_⟩, ?_, ?_⟩
    · exact hinv.n_eq
    · show -1 ≤ s.lastStored + (b.length : Int)
      omega
    · show s.lastStored + (b.length : Int) + 1 ≤ (ls.length : Int)
      rw [hblen]; push_cast; omega
    · exact hinv.chunks_eq
    · exact hinv.cache_len
    · exact hinv.head_eq
    · exact hinv.cache_get
    · show (s.files.set c0 (s.files.getD c0 [] ++ b)).length = s.chunks + 1
      rw [List.length_set]; exact hinv.files_len
    · show ∀ c, (s.files.set c0 (s.files.getD c0 [] ++ b)).getD c []
        = (ls.drop (c * K)).take
            (min (s.lastStored + (b.length : Int) + 1).toNat (c * K + K)
              - c * K)
      intro c
      have htn : (s.lastStored + (b.length : Int) + 1).toNat
          = min ls.length (c0 * K + K) := by
        rw [hblen]; omega
      rw [htn]
      by_cases hc : c = c0
      · rw [hc]
        have hclt : c0 < s.files.length := by
          rw [hinv.files_len, hinv.chunks_eq]
          omega
        rw [getD_set_self _ _ _ hclt, hinv.files_get, hbval]
        have e1 : min (s.lastStored + 1).toNat (c0 * K + K)
            = (s.lastStored + 1).toNat := by omega
        have e2 : min (min ls.length (c0 * K + K)) (c0 * K + K)
            = min ls.length (c0 * K + K) := by omega
        rw [e1, e2]
        have e4 : min ls.length (c0 * K + K) - c0 * K
            = ((s.lastStored + 1).toNat - c0 * K)
              + (min ls.length (c0 * K + K) - (s.lastStored + 1).toNat) := by
          omega
        rw [e4, List.take_add]
        congr 1
        rw [List.drop_drop,
          show c0 * K + ((s.lastStored + 1).toNat - c0 * K)
            = (s.lastStored + 1).toNat by omega]
      · rw [getD_set_ne _ _ _ _ (fun he => hc he.symm), hinv.files_get]
        rcases Nat.lt_or_ge c c0 with hlt | hge
        · have h1 : c * K + K ≤ c0 * K := by
            have ha : (c + 1) * K ≤ c0 * K := Nat.mul_le_mul_right K hlt
            have hb2 : (c + 1) * K = c * K + K := by ring
            omega
          have e1 : min (s.lastStored + 1).toNat (c * K + K) = c * K + K := by
            omega
          have e2 : min (min ls.length (c0 * K + K)) (c * K + K)
              = c * K + K := by omega
          rw [e1, e2]
        · have hgt : c0 < c := by omega
          have h1 : c0 * K + K ≤ c * K := by
            have ha : (c0 + 1) * K ≤ c * K := Nat.mul_le_mul_right K hgt
            have hb2 : (c0 + 1) * K = c0 * K + K := by ring
            omega
          have e1 : min (s.lastStored + 1).toNat (c * K + K) - c * K = 0 := by
            omega
          have e2 : min (min ls.length (c0 * K + K)) (c * K + K) - c * K
              = 0 := by omega
          rw [e1, e2]
      
    · show ∀ c, lookupBuf (eraseBuf s.buffer c0) c
        = pendingChunk K ls (s.lastStored + (b.length : Int)) c
      intro c
      have htn : (s.lastStored + (b.length : Int) + 1).toNat
          = min ls.length (c0 * K + K) := by
        rw [hblen]; omega
      by_cases hc : c = c0
      · rw [hc, lookupBuf_eraseBuf_self _ _ hinv.keys_nodup]
        unfold pendingChunk
        rw [if_neg (by omega)]
      · rw [lookupBuf_eraseBuf_ne _ _ _ (fun he => hc he.symm),
          hinv.buf_lookup]
        unfold pendingChunk
        rcases Nat.lt_or_ge c c0 with hlt | hge
        · have h1 : c * K + K ≤ c0 * K := by
            have ha : (c + 1) * K ≤ c0 * K := Nat.mul_le_mul_right K hlt
            have hb2 : (c + 1) * K = c * K + K := by ring
            omega
          rw [if_neg (by omega), if_neg (by omega)]
        · have hgt : c0 < c := by omega
          have h1 : c0 * K + K ≤ c * K := by
            have ha : (c0 + 1) * K ≤ c * K := Nat.mul_le_mul_right K hgt
            have hb2 : (c0 + 1) * K = c0 * K + K := by ring
            omega
          have e1 : max (s.lastStored + 1).toNat (c * K)
              = max (s.lastStored + (b.length : Int) + 1).toNat (c * K) := by
            omega
          rw [e1]
    · show ((eraseBuf s.buffer c0).map Prod.fst).Nodup
      exact (keys_eraseBuf_sublist _ _).nodup hinv.keys_nodup
    · exact hstnew
    · show s.lastStored < s.lastStored + (b.length : Int)
      have : 0 < b.length := by rw [hblen]; omega
      omega
  · rw [if_neg hpend] at hlook
    exact absurd hlook.symm (by simp)

theorem Inv_alignLoop {Log : Type} (K : Nat) (empty : Bool) (fuel : Nat)
    (ls : List Log) (s : HLS Log) (hK : 0 < K) (hinv : Inv K ls s) :
    Inv K ls (alignLoop K empty fuel s) := by
  induction fuel generalizing s with
  | zero => exact hinv
  | succ fuel ih =>
      rw [alignLoop]
      split
      · exact hinv
      · rcases hb : lookupBuf s.buffer ((s.lastStored + 1).toNat / K) with _ | b
        · simp only [hb]
          exact hinv
        · simp only [hb]
          split
          · exact hinv
          · exact ih _ (Inv_alignStep K ls s b hK hinv hb).1

theorem alignLoop_drain {Log : Type} (K : Nat) (fuel : Nat) (ls : List Log)
    (s : HLS Log) (hK : 0 < K) (hinv : Inv K ls s)
    (hfuel : s.buffer.length < fuel) :
    Inv K ls (alignLoop K true fuel s)
    ∧ (alignLoop K true fuel s).lastStored + 1 = (ls.length : Int)
    ∧ (alignLoop K true fuel s).buffer = [] := by
  induction fuel generalizing s with
  | zero => omega
  | succ fuel ih =>
      rw [alignLoop, if_neg (by simp)]
      rcases hb : lookupBuf s.buffer ((s.lastStored + 1).toNat / K) with _ | b
      · simp only [hb]
        have hlook := hb
        rw [hinv.buf_lookup,
          pendingChunk_next K ls s.lastStored hK hinv.st_lb hinv.st_ub] at hlook
        by_cases hpend : s.lastStored + 1 < (ls.length : Int)
        · rw [if_pos hpend] at hlook
          exact absurd hlook (by simp)
        · have hst : s.lastStored + 1 = (ls.length : Int) := by
            have := hinv.st_ub
            omega
          refine ⟨hinv, hst, ?_⟩
          apply buffer_eq_nil_of_lookup_none
          intro c
          rw [hinv.buf_lookup]
          unfold pendingChunk
          rw [if_neg (by omega)]
      · simp only [hb]
        have hlook := hb
        rw [hinv.buf_lookup,
          pendingChunk_next K ls s.lastStored hK hinv.st_lb hinv.st_ub] at hlook
        by_cases hpend : s.lastStored + 1 < (ls.length : Int)
        · rw [if_pos hpend] at hlook
          have hbval := Option.some_inj.mp hlook.symm
          have hbpos : b.length ≠ 0 := by
            rw [hbval, List.length_take, List.length_drop]
            have hc0le : (s.lastStored + 1).toNat / K * K
                ≤ (s.lastStored + 1).toNat := div_mul_le _ K
            have hc0lt : (s.lastStored + 1).toNat
                < (s.lastStored + 1).toNat / K * K + K := by
              have h1 := lt_div_succ_mul (s.lastStored + 1).toNat K hK
              have h2 : ((s.lastStored + 1).toNat / K + 1) * K
                  = (s.lastStored + 1).toNat / K * K + K := by ring
              omega
            have := hinv.st_lb
            omega
          rw [if_neg hbpos]
          have hstep := Inv_alignStep K ls s b hK hinv hb
          refine ih _ hstep.1 ?_
          have hlen := eraseBuf_length s.buffer ((s.lastStored + 1).toNat / K)
            (by rw [hb]; simp)
          show (eraseBuf s.buffer ((s.lastStored + 1).toNat / K)).length < fuel
          omega
        · rw [if_neg hpend] at hlook
          exact absurd hlook.symm (by simp)

theorem Inv_setHeavy {Log : Type} (K : Nat) (ls : List Log) (s : HLS Log)
    (v : Bool) (hinv : Inv K ls s) : Inv K ls { s with heavyLoad := v } :=
  ⟨hinv.n_eq, hinv.st_lb, hinv.st_ub, hinv.chunks_eq, hinv.cache_len,
    hinv.head_eq, hinv.cache_get, hinv.files_len, hinv.files_get,
    hinv.buf_lookup, hinv.keys_nodup⟩

theorem Inv_alignStorage {Log : Type} (K : Nat) (b : Bool) (ls : List Log)
    (s : HLS Log) (hK : 0 < K) (hinv : Inv K ls s) :
    Inv K ls (alignStorage K s b) := by
  unfold alignStorage
  split
  · exact hinv
  · exact Inv_alignLoop K b _ ls s hK hinv

theorem opsLogs_append {Log : Type} (a b : List (StorageOp Log)) :
    opsLogs (a ++ b) = opsLogs a ++ opsLogs b := by
  induction a with
  | nil => rfl
  | cons op rest ih => cases op <;> simp [opsLogs, ih]

/-- Every reachable state satisfies the invariant. -/
theorem Inv_runOps {Log : Type} (K : Nat) (hK : 0 < K)
    (ops : List (StorageOp Log)) : Inv K (opsLogs ops) (runOps K ops) := by
  unfold runOps
  induction ops using List.reverseRecOn with
  | nil => exact Inv_init K
  | append_singleton ops op ih =>
      rw [List.foldl_append, List.foldl_cons, List.foldl_nil, opsLogs_append]
      cases op with
      | add l => exact Inv_addLog K _ _ l hK ih
      | align b =>
          show Inv K (opsLogs ops ++ []) (alignStorage K _ b)
          rw [List.append_nil]
          exact Inv_alignStorage K b _ _ hK ih
      | setHeavy v =>
          show Inv K (opsLogs ops ++ []) _
          rw [List.append_nil]
          exact Inv_setHeavy K _ _ v ih

/-- Once `lastStored + 1 = n`, chunk file `c` holds the whole chunk `c`:
the records `[cK, min(n, cK+K))`, i.e. `min K (n - cK)` lines. -/
theorem files_full_spec {Log : Type} (K : Nat) (ls : List Log) (t : HLS Log)
    (hK : 0 < K) (hinv : Inv K ls t)
    (hst : t.lastStored + 1 = (ls.length : Int)) :
    (∀ c, t.files.getD c [] = (ls.drop (c * K)).take K)
    ∧ (∀ c, (t.files.getD c []).length = min K (ls.length - c * K)) := by
  have hcontent : ∀ c, t.files.getD c [] = (ls.drop (c * K)).take K := by
    intro c
    rw [hinv.files_get, show (t.lastStored + 1).toNat = ls.length by omega]
    by_cases hc : c * K ≤ ls.length
    · by_cases hk : c * K + K ≤ ls.length
      · rw [show min ls.length (c * K + K) - c * K = K by omega]
      · rw [show min ls.length (c * K + K) - c * K = ls.length - c * K by omega,
          List.take_all_of_le (by simp [List.length_drop]),
          List.take_all_of_le (by simp [List.length_drop]; omega)]
    · rw [show min ls.length (c * K + K) - c * K = 0 by omega, List.take_zero,
        List.drop_eq_nil_of_le (by omega), List.take_nil]
  refine ⟨hcontent, fun c => ?_⟩
  rw [hcontent c, List.length_take, List.length_drop]

/-- **C4.** After `alignStorage(drain := true)` on any reachable storage
state, with no concurrent appends (the model is sequential):
`lastStored + 1 = n`; every per-chunk pending buffer has been removed from
the buffer map (the map is empty); and each chunk file `c` holds exactly
`min K (n - c·K)` JSON lines — the records of chunk `c` in increasing
index order. -/
theorem C4_alignStorage_drain {Log : Type} (K : Nat)
    (ops : List (StorageOp Log)) (hK : 0 < K) :
    (alignStorage K (runOps K ops) true).lastStored + 1
        = ((alignStorage K (runOps K ops) true).n : Int)
    ∧ (alignStorage K (runOps K ops) true).buffer = []
    ∧ (∀ c : Nat,
        ((alignStorage K (runOps K ops) true).files.getD c []).length
          = min K ((alignStorage K (runOps K ops) true).n - c * K))
    ∧ (∀ c : Nat, (alignStorage K (runOps K ops) true).files.getD c []
        = ((opsLogs ops).drop (c * K)).take K) := by
  have hinv := Inv_runOps K hK ops
  unfold alignStorage
  split
  · next hn =>
      have hls : opsLogs ops = [] := by
        have h := hinv.n_eq
        rw [hn] at h
        exact List.eq_nil_of_length_eq_zero h.symm
      have hst : (runOps K ops).lastStored + 1 = 0 := by
        have h1 := hinv.st_lb
        have h2 := hinv.st_ub
        rw [hls] at h2
        simp at h2
        omega
      have hstn : (runOps K ops).lastStored + 1
          = ((opsLogs ops).length : Int) := by rw [hls]; simpa using hst
      obtain ⟨hcontent, hlen⟩ := files_full_spec K (opsLogs ops) _ hK hinv hstn
      refine ⟨by rw [hinv.n_eq, hls]; simpa using hst, ?_, ?_, hcontent⟩
      · apply buffer_eq_nil_of_lookup_none
        intro c
        rw [hinv.buf_lookup]
        unfold pendingChunk
        rw [hls]
        rw [if_neg (by simp)]
      · intro c
        rw [hlen c, hinv.n_eq]
  · have hdrain := alignLoop_drain K ((runOps K ops).buffer.length + 1)
      (opsLogs ops) (runOps K ops) hK hinv (by omega)
    obtain ⟨hinv', hst', hbuf'⟩ := hdrain
    have hn' : (alignLoop K true ((runOps K ops).buffer.length + 1)
        (runOps K ops)).n = (opsLogs ops).length := hinv'.n_eq
    obtain ⟨hcontent, hlen⟩ := files_full_spec K (opsLogs ops) _ hK hinv' hst'
    exact ⟨by rw [hn']; exact hst', hbuf', fun c => by rw [hlen c, hn'],
      hcontent⟩

/-- Witness for C4 at `K = 2` and a concrete mixed operation sequence. -/
theorem C4_alignStorage_drain_witness :
    0 < 2
    ∧ ((alignStorage 2 (runOps 2 [StorageOp.setHeavy true, .add (10 : Nat),
          .add 11, .add 12, .setHeavy false, .add 13]) true).lastStored + 1
        = ((alignStorage 2 (runOps 2 [StorageOp.setHeavy true, .add (10 : Nat),
            .add 11, .add 12, .setHeavy false, .add 13]) true).n : Int)
      ∧ (alignStorage 2 (runOps 2 [StorageOp.setHeavy true, .add (10 : Nat),
          .add 11, .add 12, .setHeavy false, .add 13]) true).buffer = []
      ∧ (∀ c : Nat,
          ((alignStorage 2 (runOps 2 [StorageOp.setHeavy true, .add (10 : Nat),
              .add 11, .add 12, .setHeavy false, .add 13]) true).files.getD
            c []).length
          = min 2 ((alignStorage 2 (runOps 2 [StorageOp.setHeavy true,
              .add (10 : Nat), .add 11, .add 12, .setHeavy false,
              .add 13]) true).n - c * 2))
      ∧ (∀ c : Nat, (alignStorage 2 (runOps 2 [StorageOp.setHeavy true,
            .add (10 : Nat), .add 11, .add 12, .setHeavy false,
            .add 13]) true).files.getD c []
          = ((opsLogs [StorageOp.setHeavy true, .add (10 : Nat), .add 11,
              .add 12, .setHeavy false, .add 13]).drop (c * 2)).take 2)) :=
  ⟨by decide,
    C4_alignStorage_drain 2 [StorageOp.setHeavy true, .add (10 : Nat), .add 11,
      .add 12, .setHeavy false, .add 13] (by decide)⟩

/-! ### `hugeLogger.newLog` and the suppressed-output path (C6) -/

/-- The writer state of a `hugeLogger`: whether a sink is attached
(`out != nil`), the heavy-load flag, `lastWrote`, the storage, and the
trace of indices emitted to the sink. -/
structure HLogger (Log : Type) where
  hasOut : Bool
  heavyLoad : Bool
  lastWrote : Int
  hls : HLS Log
  emitted : List Nat
deriving DecidableEq

def initHLogger {Log : Type} : HLogger Log :=
  { hasOut := false, heavyLoad := false, lastWrote := -1, hls := initHLS,
    emitted := [] }

/-- `hugeLogger.newLog` as in src/v2/huge_logger.go:24-41: append to the
storage, return early — without touching `lastWrote` — when the sink is
nil or output is suppressed, else emit synchronously under the
`!heavyLoad && lastWrote == p-1` gate. -/
def hugeNewLogV2 {Log : Type} (K : Nat) (lg : HLogger Log) (log : Log)
    (writeOutput : Bool) : HLogger Log × Nat :=
  let p := lg.hls.n
  let lg1 := { lg with hls := addLog K lg.hls log }
  if lg1.hasOut = false ∨ writeOutput = false then (lg1, p)
  else if lg1.heavyLoad = false ∧ lg1.lastWrote = (p : Int) - 1 then
    ({ lg1 with lastWrote := (p : Int), emitted := lg1.emitted ++ [p] }, p)
  else (lg1, p)

/-- `hugeLogger.newLog` as in src/unnamed/part_002:28-53: the suppressed
path sets `lastWrote := p` before returning, keeping `lastWrote` in
lockstep with the append index. -/
def hugeNewLogP2 {Log : Type} (K : Nat) (lg : HLogger Log) (log : Log)
    (writeOutput : Bool) : HLogger Log × Nat :=
  let lg1 := { lg with hls := addLog K lg.hls log }
  let p := lg1.hls.n - 1
  if lg1.hasOut = false ∨ writeOutput = false then
    ({ lg1 with lastWrote := (p : Int) }, p)
  else if lg1.heavyLoad = false ∧ lg1.lastWrote = (p : Int) - 1 then
    ({ lg1 with lastWrote := (p : Int), emitted := lg1.emitted ++ [p] }, p)
  else (lg1, p)

/-- **C6** (code bug).  A fresh logger with no sink (`out == nil`,
`lastWrote = -1`): `newLog(log, true)` stores the record at index `p = 0`
and emits nothing, as claimed, in both variants.  But the cited
src/v2/huge_logger.go:24-41 variant returns without setting `lastWrote`,
leaving it at `-1`, whereas the claim (and the spec, and the sibling
src/unnamed/part_002:28-53 variant evaluated alongside) requires
`lastWrote = p = 0` before returning. -/
theorem C6_suppressed_lastWrote :
    (hugeNewLogV2 1 initHLogger (10 : Nat) true).2 = 0
    ∧ (hugeNewLogV2 1 initHLogger (10 : Nat) true).1.emitted = []
    ∧ (hugeNewLogV2 1 initHLogger (10 : Nat) true).1.lastWrote = -1
    ∧ (hugeNewLogP2 1 initHLogger (10 : Nat) true).2 = 0
    ∧ (hugeNewLogP2 1 initHLogger (10 : Nat) true).1.emitted = []
    ∧ (hugeNewLogP2 1 initHLogger (10 : Nat) true).1.lastWrote = 0 := by
  decide

/-! ### C1: `getLogs` round-trips on `addLog`-only states -/

/-- A pure sequence of `addLog` calls keeps `heavyLoad = false` and
`lastStored = n - 1` (every record is flushed on the spot). -/
theorem runAdd_spec {Log : Type} (K : Nat) (hK : 0 < K) (ls : List Log) :
    Inv K ls (runAdd K ls) ∧ (runAdd K ls).heavyLoad = false
    ∧ (runAdd K ls).lastStored + 1 = (ls.length : Int) := by
  unfold runAdd
  induction ls using List.reverseRecOn with
  | nil => exact ⟨Inv_init K, rfl, rfl⟩
  | append_singleton ls l ih =>
      rw [List.foldl_append, List.foldl_cons, List.foldl_nil]
      obtain ⟨hinv, hhl, hst⟩ := ih
      refine ⟨Inv_addLog K ls _ l hK hinv, ?_, ?_⟩
      · rw [addLog_heavyLoad]
        exact hhl
      · rw [addLog_lastStored]
        have hguard : (cacheInsert K (ls.foldl (addLog K) initHLS) l).heavyLoad
              = false
            ∧ (cacheInsert K (ls.foldl (addLog K) initHLS) l).lastStored + 1
              = ((cacheInsert K (ls.foldl (addLog K) initHLS) l).n : Int) := by
          rw [cacheInsert_heavyLoad, cacheInsert_lastStored, cacheInsert_n,
            hinv.n_eq]
          exact ⟨hhl, hst⟩
        unfold storeOrBuffer
        rw [if_pos hguard]
        show (cacheInsert K (ls.foldl (addLog K) initHLS) l).lastStored + 1 + 1
          = ((ls ++ [l]).length : Int)
        rw [cacheInsert_lastStored]
        simp only [List.length_append, List.length_cons, List.length_nil]
        push_cast
        omega

/-- `getLog` is correct on the cache region (`n ≤ K` or `i ≥ n - K`). -/
theorem getLog_cache {Log : Type} (K : Nat) (ls : List Log) (s : HLS Log)
    (i : Nat) (hK : 0 < K) (hinv : Inv K ls s) (hi : i < ls.length)
    (hge : ls.length - K ≤ i) : getLog K s i = ls[i]? := by
  unfold getLog
  rw [hinv.n_eq]
  by_cases hsmall : ls.length ≤ K
  · rw [if_pos hsmall]
    have h := hinv.cache_get i hi hge
    rwa [Nat.mod_eq_of_lt (by omega)] at h
  · rw [if_neg hsmall, if_pos (by omega)]
    have harith : (i - (ls.length - K) + s.cacheHead) % K = i % K := by
      rw [hinv.head_eq, if_neg hsmall]
      have h1 : i - (ls.length - K) + ls.length = i + K := by omega
      have h2 : (i - (ls.length - K) + ls.length % K) % K
          = (i - (ls.length - K) + ls.length) % K := by
        conv_rhs => rw [Nat.add_mod]
        rw [Nat.add_mod (i - (ls.length - K)) (ls.length % K) K,
          Nat.mod_mod_of_dvd ls.length (dvd_refl K)]
      rw [h2, h1, Nat.add_mod_right]
    rw [harith]
    exact hinv.cache_get i hi hge

theorem scanRead_spec {Log : Type} (stop : Int) :
    ∀ (lines : List Log) (i : Int),
    scanRead stop lines i
      = (lines.take (stop - i).toNat,
          i + ((min lines.length (stop - i).toNat : Nat) : Int)) := by
  intro lines
  induction lines with
  | nil =>
      intro i
      rw [scanRead]
      simp
  | cons l rest ih =>
      intro i
      rw [scanRead]
      by_cases hstop : stop ≤ i
      · rw [if_pos hstop, show (stop - i).toNat = 0 by omega]
        simp
      · rw [if_neg hstop]
        simp only [ih (i + 1)]
        rw [show (stop - i).toNat = (stop - (i + 1)).toNat + 1 by omega]
        rw [List.take_succ_cons, List.length_cons, Prod.mk.injEq]
        refine ⟨rfl, ?_⟩
        push_cast
        omega

/-- The cache-tail loop of `getLogs` returns the requested records. -/
theorem intRange_foldr_getLog {Log : Type} (K : Nat) (ls : List Log)
    (s : HLS Log) (hK : 0 < K) (hinv : Inv K ls s) :
    ∀ (count : Nat) (a : Int), 0 ≤ a → a.toNat + count ≤ ls.length →
    ls.length - K ≤ a.toNat →
    (intRange a count).foldr
      (fun i acc => (if 0 ≤ i then getLog K s i.toNat else none).bind fun l =>
        acc.map fun r => l :: r) (some [])
      = some ((ls.drop a.toNat).take count) := by
  intro count
  induction count with
  | zero =>
      intro a _ _ _
      rw [intRange]
      simp
  | succ count ih =>
      intro a ha hbound hge
      rw [intRange, List.foldr_cons, if_pos ha,
        getLog_cache K ls s a.toNat hK hinv (by omega) hge,
        ih (a + 1) (by omega) (by omega) (by omega),
        List.getElem?_eq_getElem (show a.toNat < ls.length by omega)]
      simp only [Option.some_bind, Option.map_some']
      congr 1
      rw [show (a + 1).toNat = a.toNat + 1 by omega]
      conv_rhs => rw [List.drop_eq_getElem_cons
        (show a.toNat < ls.length by omega)]
      rw [List.take_succ_cons]

/-- A disk interval that sits inside one fully stored chunk is read back
exactly, with no EOF and no buffer spill. -/
theorem readInterval_disk {Log : Type} (K : Nat) (ls : List Log)
    (s : HLS Log) (x : interval) (c : Nat) (hK : 0 < K) (hinv : Inv K ls s)
    (hst : s.lastStored + 1 = (ls.length : Int))
    (hclo : ((c * K : Nat) : Int) ≤ x.start)
    (hchi : x.stop ≤ ((c * K + K : Nat) : Int))
    (hlt : x.start < x.stop) (hub : x.stop ≤ (ls.length : Int) - (K : Int)) :
    readInterval K s x
      = some ((ls.drop x.start.toNat).take (x.stop - x.start).toNat) := by
  have h0 : 0 ≤ x.start := le_trans (by positivity) hclo
  have hnK : K < ls.length := by omega
  have hn := hinv.n_eq
  have hfnum : x.start.toNat / K = c :=
    Nat.div_eq_of_lt_le (by omega) (by
      have : (c + 1) * K = c * K + K := by ring
      omega)
  have hfile : s.files.getD c [] = (ls.drop (c * K)).take K :=
    (files_full_spec K ls s hK hinv hst).1 c
  simp only [readInterval]
  rw [if_neg (by omega), if_neg (by omega), hfnum, hfile, List.drop_take,
    List.drop_drop, show c * K + (x.start.toNat - c * K) = x.start.toNat
      by omega,
    scanRead_spec x.stop ((ls.drop x.start.toNat).take
      (K - (x.start.toNat - c * K))) x.start]
  dsimp only
  have hmin : min ((ls.drop x.start.toNat).take
        (K - (x.start.toNat - c * K))).length (x.stop - x.start).toNat
      = (x.stop - x.start).toNat := by
    rw [List.length_take, List.length_drop]
    omega
  rw [hmin]
  have hfin : ¬(x.start + (((x.stop - x.start).toNat : Nat) : Int) < x.stop
      ∧ s.lastStored < x.start + (((x.stop - x.start).toNat : Nat) : Int)) := by
    intro hcontra
    have := hcontra.1
    omega
  rw [if_neg hfin]
  rw [List.take_take, show min (x.stop - x.start).toNat
      (K - (x.start.toNat - c * K)) = (x.stop - x.start).toNat by omega]

/-- No interior chunk boundary: the cutting loop never cuts inside. -/
def NoIntMul (K : Nat) (x : interval) : Prop :=
  ∀ j : Int, x.start < j → j < x.stop → ¬ ((K : Int) ∣ j)

/-- `Covers P a b l`: the intervals `l` tile `[a, b)` in order, each piece
nonempty and satisfying `P`. -/
inductive Covers (P : interval → Prop) : Int → Int → List interval → Prop
  | nil (a : Int) : Covers P a a []
  | cons (x : interval) (b : Int) (rest : List interval) :
      x.start < x.stop → P x → Covers P x.stop b rest →
      Covers P x.start b (x :: rest)

theorem Covers.le {P : interval → Prop} {a b : Int} {l : List interval}
    (h : Covers P a b l) : a ≤ b := by
  induction h with
  | nil => exact le_refl _
  | cons x b rest hlt hP hrest ih => omega

theorem Covers.append {P : interval → Prop} {a m b : Int}
    {l1 l2 : List interval} (h1 : Covers P a m l1) (h2 : Covers P m b l2) :
    Covers P a b (l1 ++ l2) := by
  induction h1 with
  | nil => exact h2
  | cons x m' rest hlt hP hrest ih =>
      exact Covers.cons x b (rest ++ l2) hlt hP (ih h2)

theorem Covers.weaken {P Q : interval → Prop} {a b : Int}
    {l : List interval}
    (h : Covers P a b l)
    (hw : ∀ x, a ≤ x.start → x.stop ≤ b → x.start < x.stop → P x → Q x) :
    Covers Q a b l := by
  induction h with
  | nil => exact Covers.nil _
  | cons x b rest hlt hP hrest ih =>
      refine Covers.cons x b rest hlt
        (hw x (le_refl _) hrest.le hlt hP) (ih ?_)
      intro y h1 h2 h3 hPy
      exact hw y (by omega) h2 h3 hPy

theorem Covers.mem_bounds {P : interval → Prop} {a b : Int}
    {l : List interval} (h : Covers P a b l) :
    ∀ x ∈ l, a ≤ x.start ∧ x.stop ≤ b ∧ x.start < x.stop ∧ P x := by
  induction h with
  | nil => intro x hx; simp at hx
  | cons y b rest hlt hP hrest ih =>
      intro x hx
      rcases List.mem_cons.mp hx with rfl | hx
      · exact ⟨le_refl _, hrest.le, hlt, hP⟩
      · obtain ⟨h1, h2, h3, h4⟩ := ih x hx
        exact ⟨by omega, h2, h3, h4⟩

/-- The cutting loop of `splitRequestRange` tiles `[a, i + count)` into
pieces with no interior chunk boundary. -/
theorem walkIntervals_covers (K : Nat) :
    ∀ (count : Nat) (a i : Int), a < i →
    (∀ j : Int, a < j → j < i → ¬ ((K : Int) ∣ j)) →
    Covers (NoIntMul K) a (i + count) (walkIntervals K ⟨a, i⟩ i count) := by
  intro count
  induction count with
  | zero =>
      intro a i hai hint
      rw [walkIntervals]
      rw [show i + ((0 : Nat) : Int) = i by omega]
      exact Covers.cons ⟨a, i⟩ i [] hai hint (Covers.nil i)
  | succ count ih =>
      intro a i hai hint
      rw [walkIntervals]
      rw [show i + ((count + 1 : Nat) : Int) = (i + 1) + (count : Int) by
        push_cast; ring]
      by_cases hdiv : i % (K : Int) = 0
      · rw [if_pos hdiv]
        exact Covers.cons ⟨a, i⟩ ((i + 1) + (count : Int)) _ hai hint
          (ih i (i + 1) (by omega) (by intro j h1 h2; omega))
      · rw [if_neg hdiv]
        have hnd : ¬ ((K : Int) ∣ i) :=
          fun hd => hdiv (Int.emod_eq_zero_of_dvd hd)
        exact ih a (i + 1) (by omega) (by
          intro j h1 h2
          rcases lt_or_eq_of_le (by omega : j ≤ i) with hj | hj
          · exact hint j h1 hj
          · subst hj; exact hnd)

/-- A nonempty interval with no interior chunk boundary lies inside one
chunk. -/
theorem noIntMul_within_chunk (K : Nat) (hK : 0 < K) (x : interval)
    (h0 : 0 ≤ x.start) (hne : x.start < x.stop) (hni : NoIntMul K x) :
    ∃ c : Nat, ((c * K : Nat) : Int) ≤ x.start
      ∧ x.stop ≤ ((c * K + K : Nat) : Int) := by
  refine ⟨x.start.toNat / K, ?_, ?_⟩
  · have := div_mul_le x.start.toNat K
    omega
  · by_contra hgt
    push_neg at hgt
    have hdvd : (K : Int) ∣ ((x.start.toNat / K * K + K : Nat) : Int) := by
      refine ⟨((x.start.toNat / K + 1 : Nat) : Int), ?_⟩
      push_cast
      ring
    refine hni ((x.start.toNat / K * K + K : Nat) : Int) ?_ (by omega) hdvd
    have h1 := lt_div_succ_mul x.start.toNat K hK
    have h2 : (x.start.toNat / K + 1) * K = x.start.toNat / K * K + K := by
      ring
    omega

theorem slice_append {Log : Type} (ls : List Log) (a m b : Int)
    (ha : 0 ≤ a) (ham : a ≤ m) (hmb : m ≤ b) :
    (ls.drop a.toNat).take (m - a).toNat
      ++ (ls.drop m.toNat).take (b - m).toNat
      = (ls.drop a.toNat).take (b - a).toNat := by
  rw [show (b - a).toNat = (m - a).toNat + (b - m).toNat by omega,
    List.take_add]
  congr 2
  rw [List.drop_drop]
  congr 1
  omega

/-- Folding the `getLogs` accumulator over a tiling whose pieces read back
exactly yields the whole slice. -/
theorem foldl_covers_slice {Log : Type} (K : Nat) (ls : List Log)
    (s : HLS Log) :
    ∀ (l : List interval) (a b : Int) (r : List Log),
    Covers (fun x => readInterval K s x
        = some ((ls.drop x.start.toNat).take (x.stop - x.start).toNat)) a b l
    → 0 ≤ a →
    l.foldl (fun acc x => acc.bind fun r => (readInterval K s x).map
        fun v => r ++ v) (some r)
      = some (r ++ (ls.drop a.toNat).take (b - a).toNat) := by
  intro l
  induction l with
  | nil =>
      intro a b r hcov ha
      cases hcov
      simp
  | cons x rest ih =>
      intro a b r hcov ha
      cases hcov with
      | cons _ _ _ hlt hP hrest =>
          rw [List.foldl_cons]
          simp only [Option.some_bind, hP, Option.map_some']
          rw [ih x.stop b _ hrest (by omega)]
          rw [List.append_assoc,
            slice_append ls x.start x.stop b ha hlt.le hrest.le]

/-- A piece emitted by `splitRequestRange` is readable: inside the cache
tail, or below it with no interior chunk boundary. -/
def GoodPiece (K : Nat) (n : Nat) (x : interval) : Prop :=
  ((n : Int) - (K : Int) ≤ x.start)
  ∨ (x.stop ≤ (n : Int) - (K : Int) ∧ NoIntMul K x)

theorem splitRequestRange_covers {Log : Type} (K : Nat) (s : HLS Log)
    (start stop : Int) (hK : 0 < K)
    (h0 : 0 ≤ start) (hlt : start < stop) (hub : stop ≤ (s.n : Int)) :
    Covers (GoodPiece K s.n) start stop (splitRequestRange K s start stop) := by
  simp only [splitRequestRange]
  by_cases h1 : stop - 1 ≥ (s.n : Int) - (K : Int)
  · rw [if_pos h1]
    by_cases h2 : start < (s.n : Int) - (K : Int)
    · rw [if_pos h2]
      have hA : Covers (GoodPiece K s.n) start ((s.n : Int) - (K : Int))
          (walkIntervals K ⟨start, start + 1⟩ (start + 1)
            ((s.n : Int) - K - start - 1).toNat) := by
        have hw := walkIntervals_covers K ((s.n : Int) - K - start - 1).toNat
          start (start + 1) (by omega)
          (by intro j hj1 hj2 hd; omega)
        rw [show (start + 1) + ((((s.n : Int) - K - start - 1).toNat : Nat) : Int)
            = (s.n : Int) - K by omega] at hw
        exact hw.weaken (fun x hxa hxb hxlt hP => Or.inr ⟨hxb, hP⟩)
      have hB : Covers (GoodPiece K s.n) ((s.n : Int) - (K : Int)) stop
          [⟨(s.n : Int) - K, stop⟩] :=
        Covers.cons ⟨(s.n : Int) - K, stop⟩ stop []
          (show (s.n : Int) - (K : Int) < stop by omega)
          (Or.inl (le_refl _)) (Covers.nil stop)
      exact hA.append hB
    · rw [if_neg h2]
      exact Covers.cons ⟨start, stop⟩ stop [] hlt
        (Or.inl (show (s.n : Int) - (K : Int) ≤ start by omega))
        (Covers.nil stop)
  · rw [if_neg h1]
    have hw := walkIntervals_covers K (stop - start - 1).toNat start (start + 1)
      (by omega) (by intro j hj1 hj2 hd; omega)
    rw [show (start + 1) + (((stop - start - 1).toNat : Nat) : Int) = stop
        by omega] at hw
    exact hw.weaken (fun x hxa hxb hxlt hP => Or.inr ⟨by omega, hP⟩)

/-- Any good piece of a fully stored state reads back its slice. -/
theorem readInterval_good {Log : Type} (K : Nat) (ls : List Log)
    (s : HLS Log) (x : interval) (hK : 0 < K) (hinv : Inv K ls s)
    (hst : s.lastStored + 1 = (ls.length : Int))
    (hgood : GoodPiece K s.n x) (h0 : 0 ≤ x.start) (hxlt : x.start < x.stop)
    (hxub : x.stop ≤ (ls.length : Int)) :
    readInterval K s x
      = some ((ls.drop x.start.toNat).take (x.stop - x.start).toNat) := by
  have hn := hinv.n_eq
  rcases hgood with hcache | ⟨hdisk, hni⟩
  · simp only [readInterval]
    rw [if_pos (by omega)]
    exact intRange_foldr_getLog K ls s hK hinv (x.stop - x.start).toNat
      x.start h0 (by omega) (by omega)
  · obtain ⟨c, hclo, hchi⟩ := noIntMul_within_chunk K hK x h0 hxlt hni
    exact readInterval_disk K ls s x c hK hinv hst hclo hchi hxlt (by omega)

/-- **C1** (amended).  For every storage state reachable by a sequence of
`addLog` calls appending `ls`, and every `0 ≤ start < stop ≤ n`:
`getLogs start stop` returns exactly the records appended at indices
`start .. stop-1`, in ascending order (`stop - start` of them), and
`splitRequestRange` partitions the request into intervals each lying
entirely within one chunk or entirely within the cache tail.  (The claim's
original `start = stop` case fails — see the counterexample — and its
`[getLog i]` phrasing is broken by the `getLog` disk bug of C2, so the
right-hand side is stated with the appended records themselves.) -/
theorem C1_getLogs_roundtrip {Log : Type} (K : Nat) (ls : List Log)
    (start stop : Nat) (hK : 0 < K) (hlt : start < stop)
    (hub : stop ≤ ls.length) :
    getLogs K (runAdd K ls) (start : Int) (stop : Int)
      = some ((ls.drop start).take (stop - start))
    ∧ ∀ x ∈ splitRequestRange K (runAdd K ls) (start : Int) (stop : Int),
        (((runAdd K ls).n : Int) - (K : Int) ≤ x.start)
        ∨ ∃ c : Nat, ((c * K : Nat) : Int) ≤ x.start
            ∧ x.stop ≤ ((c * K + K : Nat) : Int) := by
  obtain ⟨hinv, hhl, hst⟩ := runAdd_spec K hK ls
  have hn := hinv.n_eq
  have hcov := splitRequestRange_covers K (runAdd K ls) start stop hK
    (by omega) (by exact_mod_cast hlt) (by rw [hn]; exact_mod_cast hub)
  constructor
  · unfold getLogs
    have hcov' := hcov.weaken
      (Q := fun x => readInterval K (runAdd K ls) x
        = some ((ls.drop x.start.toNat).take (x.stop - x.start).toNat))
      (fun x hxa hxb hxlt hP =>
        readInterval_good K ls (runAdd K ls) x hK hinv hst hP
          (by omega)
          hxlt (by rw [hn] at *; omega))
    rw [foldl_covers_slice K ls (runAdd K ls) _ _ _ [] hcov' (by omega),
      List.nil_append,
      show ((start : Int)).toNat = start by omega,
      show ((stop : Int) - (start : Int)).toNat = stop - start by omega]
  · intro x hx
    obtain ⟨h1, h2, h3, hP⟩ := hcov.mem_bounds x hx
    rcases hP with hc | ⟨hd, hni⟩
    · exact Or.inl hc
    · exact Or.inr (noIntMul_within_chunk K hK x (by omega) h3 hni)

/-- Witness for C1 at `K = 2`, six appended records, range `[1, 5)`. -/
theorem C1_getLogs_roundtrip_witness :
    (0 < 2 ∧ 1 < 5 ∧ 5 ≤ [(10 : Nat), 11, 12, 13, 14, 15].length)
    ∧ (getLogs 2 (runAdd 2 [(10 : Nat), 11, 12, 13, 14, 15])
          ((1 : Nat) : Int) ((5 : Nat) : Int)
        = some (([(10 : Nat), 11, 12, 13, 14, 15].drop 1).take (5 - 1))
      ∧ ∀ x ∈ splitRequestRange 2 (runAdd 2 [(10 : Nat), 11, 12, 13, 14, 15])
            ((1 : Nat) : Int) ((5 : Nat) : Int),
          (((runAdd 2 [(10 : Nat), 11, 12, 13, 14, 15]).n : Int)
              - ((2 : Nat) : Int) ≤ x.start)
          ∨ ∃ c : Nat, ((c * 2 : Nat) : Int) ≤ x.start
              ∧ x.stop ≤ ((c * 2 + 2 : Nat) : Int)) :=
  ⟨⟨by decide, by decide, by decide⟩,
    C1_getLogs_roundtrip 2 [(10 : Nat), 11, 12, 13, 14, 15] 1 5
      (by decide) (by decide) (by decide)⟩

end NixpareLogger
